import Mathlib

/-!
Verification development for the `lit` test-driver library.

The Rust sources are shallowly embedded here:

* Rust `String` values are modelled as `List Char` (a Rust string is a
  sequence of Unicode scalar values); byte indices into a string are
  modelled through `byteLen`/`dropBytes`/`byteTake`, which mirror UTF-8
  byte slicing.  Slicing at a non-boundary (which panics in Rust via
  `from_utf8(..).expect(..)` or slice indexing) is modelled as `none`.
* `std::collections::HashMap<String, String>` is modelled as an
  association list with insert-overwrite semantics (`hmInsert`,
  `hmExtend`, `hmLookup`).
* The external `regex` crate is modelled as an oracle parameter where
  the code calls it (see `Matcher` below); `regex::escape` is modelled
  concretely by `regexEscape`.
* Checked integer arithmetic: `usize` subtraction that can underflow
  (`name.len() - 1` in `parse.rs`) is modelled by testing for the
  underflow and returning `none` (the panic outcome).
-/

namespace Lit

/-- Number of UTF-8 code units of a scalar value; mirrors Rust
`char::len_utf8`. -/
def utf8Len (c : Char) : Nat :=
  if c.toNat < 0x80 then 1
  else if c.toNat < 0x800 then 2
  else if c.toNat < 0x10000 then 3
  else 4

/-- UTF-8 byte length of a string, mirrors Rust `str::len`. -/
def byteLen : List Char → Nat
  | [] => 0
  | c :: cs => utf8Len c + byteLen cs

/-- Byte-slice a string from byte index `n` to its end, mirroring Rust
`&s.as_bytes()[n..]` followed by `str::from_utf8(..).expect(..)`:
`none` models the panic when `n` is not a character boundary or is out
of range. -/
def dropBytes : Nat → List Char → Option (List Char)
  | 0, cs => some cs
  | _ + 1, [] => none
  | n + 1, c :: cs =>
    if utf8Len c ≤ n + 1 then dropBytes (n + 1 - utf8Len c) cs else none

/-- Byte-slice the first `n` bytes of a string, mirroring Rust
`&s[0..n]`; `none` models the panic on a non-boundary or out-of-range
index. -/
def byteTake : Nat → List Char → Option (List Char)
  | 0, _ => some []
  | _ + 1, [] => none
  | n + 1, c :: cs =>
    if utf8Len c ≤ n + 1 then (byteTake (n + 1 - utf8Len c) cs).map (c :: ·) else none

/-- Byte index of the first `'\n'`, mirroring Rust `str::find("\n")`. -/
def firstNewlineByteIdx : List Char → Option Nat
  | [] => none
  | c :: cs =>
    if c = '\n' then some 0 else (firstNewlineByteIdx cs).map (utf8Len c + ·)

/-- `n` is a UTF-8 code-point boundary of the string `l` (including the
two end positions). -/
def ByteBoundary (l : List Char) (n : Nat) : Prop :=
  ∃ pre post, l = pre ++ post ∧ byteLen pre = n

/-- Rust `char::is_whitespace`: the Unicode `White_Space` property,
written out as the (finite) set of scalar values carrying it. -/
def rustIsWhitespace (c : Char) : Bool :=
  c = ' ' || c = '\t' || c = '\n' || c.toNat = 0x0B || c.toNat = 0x0C || c = '\r' ||
  c.toNat = 0x85 || c.toNat = 0xA0 || c.toNat = 0x1680 ||
  (0x2000 <= c.toNat && c.toNat <= 0x200A) || c.toNat = 0x2028 || c.toNat = 0x2029 ||
  c.toNat = 0x202F || c.toNat = 0x205F || c.toNat = 0x3000

/-- Association-list model of `HashMap<String, String>`. -/
abbrev VarMap := List (String × String)

/-- `HashMap` lookup. -/
def hmLookup (m : VarMap) (k : String) : Option String :=
  (m.find? (fun p => p.1 == k)).map Prod.snd

/-- `HashMap::insert`: overwrites any previous binding of the key. -/
def hmInsert (m : VarMap) (k v : String) : VarMap :=
  (k, v) :: m.filter (fun p => p.1 != k)

/-- `HashMap::extend`: inserts every binding of `adds`, overwriting. -/
def hmExtend (m : VarMap) (adds : VarMap) : VarMap :=
  adds.foldl (fun acc p => hmInsert acc p.1 p.2) m

/-!
## Pattern model (`model.rs` / `parse.rs`)

`PatternComponent` follows `parse.rs`, which constructs
`Text`/`Variable`/`Regex`/`NamedRegex`/`Constant` components (the copy
of `model.rs` in the snapshot is an older revision that lacks the
`Constant` constructor required by `parse.rs` and `vars/resolve.rs`).
-/

/-- A component in a text pattern. -/
inductive PatternComponent where
  | Text (s : List Char)
  | Variable (name : List Char)
  | Regex (r : List Char)
  | NamedRegex (name : List Char) (r : List Char)
  | Constant (name : List Char)
deriving DecidableEq, Repr

/-- An ordered sequence of pattern components. -/
structure TextPattern where
  components : List PatternComponent
deriving DecidableEq, Repr

/-- The `Display` rendering of one component (`impl fmt::Display for
TextPattern` in `model.rs`).  The `Constant` arm is modelled from the
spec: the canonical surface syntax of a constant is `@name` (the
`Display` revision matching `parse.rs`'s `Constant` component is not in
the snapshot). -/
def renderComponent : PatternComponent → List Char
  | .Text t => t
  | .Variable n => '$' :: '$' :: n
  | .Regex r => '[' :: '[' :: (r ++ [']', ']'])
  | .NamedRegex n r => '[' :: '[' :: (n ++ ':' :: (r ++ [']', ']']))
  | .Constant n => '@' :: n

/-- The `Display` rendering of a whole pattern. -/
def renderPattern (p : TextPattern) : List Char :=
  (p.components.map renderComponent).flatten

/-!
## The text-pattern scanner (`parse.rs::text_pattern`)

The scanner is parameterised by `ia`, the model of Rust
`char::is_alphanumeric` (a Unicode property we do not tabulate; all
concrete inputs below use ASCII characters, on which any faithful model
agrees with `Char.isAlphanum`).
-/

/-- The inner bracket loop of `parse.rs::text_pattern`: scan the body of
a `[[ ... ]]` group.  Each step mirrors one `(chars.next(), chars.peek())`
match: a `]` peeking at `]` at depth 0 terminates the group (consuming
both), otherwise the character is accumulated and `[`/`]` adjust the
depth.  Returns the accumulated body and the remaining input. -/
def scanRegex : Int → List Char → List Char × List Char
  | _, [] => ([], [])
  | lvl, c :: rest =>
    if c = ']' ∧ rest.head? = some ']' ∧ lvl = 0 then
      ([], rest.tail)
    else
      let lvl' := if c = '[' then lvl + 1 else if c = ']' then lvl - 1 else lvl
      let res := scanRegex lvl' rest
      (c :: res.1, res.2)

/-- `^[a-zA-Z_]` of `IDENTIFIER_REGEX`. -/
def isIdentStart (c : Char) : Bool := c.isAlpha || c = '_'

/-- `[a-zA-Z0-9_]` of `IDENTIFIER_REGEX`. -/
def isIdentCont (c : Char) : Bool := c.isAlphanum || c = '_'

/-- `IDENTIFIER_REGEX = ^[a-zA-Z_][a-zA-Z0-9_]*$` as a predicate on the
whole string. -/
def isIdentifier : List Char → Bool
  | [] => false
  | c :: cs => isIdentStart c && cs.all isIdentCont

/-- Classification of a scanned `[[ ... ]]` body, mirroring
`parse.rs` lines 108-125: the *char* position of the first `:` is used
as a *byte* index to split the body (`&regex[0..first_colon_idx]` /
`&regex[first_colon_idx+1..]`); a named capture is produced when the
part before the colon matches `IDENTIFIER_REGEX`.  `none` models the
slicing panic when the char position is not a byte boundary. -/
def classifyFrag (frag : List Char) : Option PatternComponent :=
  match frag.findIdx? (fun c => c == ':') with
  | none => some (.Regex frag)
  | some ci =>
    match byteTake ci frag with
    | none => none
    | some pre =>
      if isIdentifier pre then
        match dropBytes (ci + 1) frag with
        | none => none
        | some rest => some (.NamedRegex pre rest)
      else some (.Regex frag)

/-- The main loop of `parse.rs::text_pattern`.  `acc` is the pending
literal run (`current_text`).  On `$$`/`@` the variable or constant
name is the following maximal alphanumeric run; the scanner then skips
`name.len() - 1` *characters* past the first, where `name.len()` is the
*byte* length — and that subtraction underflows (panics, modelled as
`none`) when the name is empty. -/
def parseComps (ia : Char → Bool) : List Char → List Char → Option (List PatternComponent)
  | '$' :: '$' :: rest, acc =>
    let name := rest.takeWhile ia
    if name = [] then none
    else
      (parseComps ia (rest.drop (byteLen name)) []).map
        (fun comps => .Text acc :: .Variable name :: comps)
  | '[' :: '[' :: rest, acc =>
    match classifyFrag (scanRegex 0 rest).1 with
    | none => none
    | some comp =>
      (parseComps ia (scanRegex 0 rest).2 []).map
        (fun comps => .Text acc :: comp :: comps)
  | '@' :: rest, acc =>
    let name := rest.takeWhile ia
    if name = [] then none
    else
      (parseComps ia (rest.drop (byteLen name)) []).map
        (fun comps => .Text acc :: .Constant name :: comps)
  | c :: rest, acc => parseComps ia rest (acc ++ [c])
  | [], acc => some [.Text acc]
termination_by l acc => l.length
decreasing_by
  all_goals simp_wf
  all_goals try omega
  all_goals
    (have h : ∀ (lvl : Int) (l : List Char), (scanRegex lvl l).2.length ≤ l.length := by
      intro lvl l
      induction l generalizing lvl with
      | nil => simp [scanRegex]
      | cons c cs ih =>
        simp only [scanRegex]
        split
        · calc cs.tail.length ≤ cs.length := by cases cs <;> simp
            _ ≤ (c :: cs).length := by simp
        · simpa using Nat.le_trans (ih _) (by simp)
     have h2 := h 0 rest
     omega)

/-- `parse.rs::text_pattern`; `none` models a panic. -/
def parseTextPattern (ia : Char → Bool) (s : List Char) : Option TextPattern :=
  (parseComps ia s []).map TextPattern.mk

/-!
## Directive recognition (`parse.rs::possible_command`)
-/

/-- An apostrophe, kept out of string literals. -/
def squoteChar : Char := Char.ofNat 39

/-- Character class `[A-Z-]` of `DIRECTIVE_REGEX`. -/
def isDirectiveKeyChar (c : Char) : Bool := ('A' ≤ c && c ≤ 'Z') || c = '-'

/-- Leftmost match of `DIRECTIVE_REGEX = ([A-Z-]+):(.*)` on a line,
returning the two captures.  A regex engine tries each start position
from the left; at a given start only the maximal `[A-Z-]+` run can be
followed by `:` (any shorter prefix is followed by another `[A-Z-]`
character). -/
def findDirective : List Char → Option (List Char × List Char)
  | [] => none
  | c :: rest =>
    let run := (c :: rest).takeWhile isDirectiveKeyChar
    if run ≠ [] ∧ ((c :: rest).drop run.length).head? = some ':' then
      some (run, (c :: rest).drop (run.length + 1))
    else findDirective rest

/-- Rust `str::trim` (both ends, `char::is_whitespace`). -/
def trimBoth (l : List Char) : List Char :=
  ((l.dropWhile rustIsWhitespace).reverse.dropWhile rustIsWhitespace).reverse

/-- Worker for `str::split_whitespace`. -/
def splitWsGo : List Char → List Char → List (List Char)
  | [], cur => if cur = [] then [] else [cur.reverse]
  | c :: rest, cur =>
    if rustIsWhitespace c then
      if cur = [] then splitWsGo rest [] else cur.reverse :: splitWsGo rest []
    else splitWsGo rest (c :: cur)

/-- Rust `str::split_whitespace` as a list of words. -/
def splitWhitespaceList (l : List Char) : List (List Char) := splitWsGo l []

/-- Join with single spaces (`Vec::join(" ")`). -/
def joinWithSpace (ls : List (List Char)) : List Char :=
  (ls.intersperse [' ']).flatten

/-- `parse.rs::invocation`: the RUN tail split into whitespace-separated
words and rejoined with single spaces. -/
def normalizeInvocationCommand (l : List Char) : List Char :=
  joinWithSpace (splitWhitespaceList l)

/-- A tool invocation (`model.rs::Invocation`). -/
structure Invocation where
  original_command : String
deriving DecidableEq, Repr

/-- A test-file command (`model.rs::CommandKind`). -/
inductive CommandKind where
  | Run (invocation : Invocation)
  | Check (pattern : TextPattern)
  | CheckNext (pattern : TextPattern)
  | XFail
deriving DecidableEq, Repr

/-- A command plus its 1-based source line (`model.rs::Command`). -/
structure Command where
  line_number : Nat
  kind : CommandKind
deriving DecidableEq, Repr

/-- Outcome of `parse.rs::possible_command`.  The Rust signature is
`Option<Result<Command, String>>`; `panicked` additionally models the
`name.len() - 1` underflow panic inside `text_pattern`. -/
inductive DirectiveParse where
  | panicked
  | notDirective
  | parseFailed (message : List Char)
  | ok (c : Command)
deriving DecidableEq, Repr

/-- The `command '<k>' not known` message. -/
def commandNotKnownMsg (kw : List Char) : List Char :=
  ("command ").toList ++ squoteChar :: (kw ++ squoteChar :: (" not known").toList)

/-- `parse.rs::possible_command`. -/
def possibleCommand (ia : Char → Bool) (line : List Char) (line_number : Nat) :
    DirectiveParse :=
  match findDirective line with
  | none => .notDirective
  | some (kw, tl) =>
    let command_str := trimBoth kw
    let after_command_str := trimBoth tl
    if command_str = ("RUN").toList then
      .ok ⟨line_number, .Run ⟨String.mk (normalizeInvocationCommand after_command_str)⟩⟩
    else if command_str = ("CHECK").toList then
      match parseComps ia after_command_str [] with
      | none => .panicked
      | some comps => .ok ⟨line_number, .Check ⟨comps⟩⟩
    else if command_str = ("CHECK-NEXT").toList then
      match parseComps ia after_command_str [] with
      | none => .panicked
      | some comps => .ok ⟨line_number, .CheckNext ⟨comps⟩⟩
    else if command_str = ("XFAIL").toList then
      .ok ⟨line_number, .XFail⟩
    else
      .parseFailed (commandNotKnownMsg command_str)

/-!
## Result taxonomy

`TestResultKind` merges the `model.rs` revision in the snapshot with the
two forms its caller `run/test_evaluator.rs` requires (`EmptyTest`, and
`ExpectedFailure` carrying `actual_reason`); the revision of `model.rs`
declaring those is not in the snapshot.
-/

/-- Information about a failed check (`model.rs::CheckFailureInfo`). -/
structure CheckFailureInfo where
  complete_output_text : List Char
  successfully_checked_until_byte_index : Nat
  expected_pattern : TextPattern
deriving DecidableEq, Repr

/-- Why a test failed (`model.rs::TestFailReason`). -/
inductive TestFailReason where
  | UnsuccessfulExecution (program_command_line : String) (exit_status : Int)
  | CheckFailed (info : CheckFailureInfo)
deriving DecidableEq, Repr

/-- The kind of a test result (`model.rs::TestResultKind`). -/
inductive TestResultKind where
  | Pass
  | UnexpectedPass
  | Error (message : String)
  | Fail (reason : TestFailReason) (hint : Option (List Char))
  | ExpectedFailure (actual_reason : TestFailReason)
  | Skip
  | EmptyTest
deriving DecidableEq, Repr

/-- `model.rs::TestResultKind::is_erroneous`.  The snapshot's `match`
does not cover `EmptyTest` (newer revision); that value never escapes
`run_test_checks` for a file reached through `execute_tests`, and is
classified as non-erroneous here. -/
def TestResultKind.is_erroneous : TestResultKind → Bool
  | .UnexpectedPass => true
  | .Error _ => true
  | .Fail _ _ => true
  | .Pass => false
  | .Skip => false
  | .ExpectedFailure _ => false
  | .EmptyTest => false

/-!
## Variable resolution (`vars/resolve.rs::text_pattern`)

The produced value is the concrete regex *string* handed to
`Regex::new` (the compiled automaton itself lives in the external regex
crate).  `lookup` models `Config::lookup_variable`, whose definition is
not in the snapshot; per the spec it searches the merged store
(constants + file variables + live captures) and a missing name is a
fatal error (`none`).
-/

/-- The character set escaped by `regex::escape`
(`regex-syntax::is_meta_character`). -/
def isRegexMeta (c : Char) : Bool :=
  c = '\\' || c = '.' || c = '+' || c = '*' || c = '?' || c = '(' || c = ')' ||
  c = '|' || c = '[' || c = ']' || c = Char.ofNat 123 || c = Char.ofNat 125 ||
  c = '^' || c = '$' || c = '#' || c = '&' || c = '-' || c = '~'

/-- Model of `regex::escape`: every meta character is preceded by a
backslash. -/
def regexEscape (t : List Char) : List Char :=
  t.flatMap (fun c => if isRegexMeta c then ['\\', c] else [c])

/-- The regex part emitted for one component (`vars/resolve.rs` lines
26-43): literal text is regex-escaped, a variable or constant is the
*unescaped* looked-up value, a regex body is passed through verbatim,
and a named regex becomes a named group. -/
def resolveComponent (lookup : String → Option String) :
    PatternComponent → Option (List Char)
  | .Text t => some (regexEscape t)
  | .Variable n => (lookup (String.mk n)).map String.toList
  | .Constant n => (lookup (String.mk n)).map String.toList
  | .Regex r => some r
  | .NamedRegex n r => some (("(?P<").toList ++ n ++ '>' :: (r ++ [')']))

/-- `vars/resolve.rs::text_pattern` up to `Regex::new`: the
concatenation of the per-component parts. -/
def resolveTextPattern (lookup : String → Option String) (p : TextPattern) :
    Option (List Char) :=
  (p.components.mapM (resolveComponent lookup)).map List.flatten

/-!
## The evaluator state (`run/test_evaluator/state.rs`)
-/

/-- The outcome of searching the compiled pattern in a haystack:
relative byte range of the first match plus the named-capture
variables harvested from it. -/
structure MatchResult where
  start : Nat
  stop : Nat
  captures : VarMap
deriving DecidableEq, Repr

/-- Oracle for the external regex engine: models
`vars::resolve::text_pattern(pattern, config, vars)` followed by
`Regex::find` on the haystack and `process_captures` on the match.  It
is a pure function of the pattern, the current variable map (which the
resolution reads) and the haystack. -/
abbrev Matcher := TextPattern → VarMap → List Char → Option MatchResult

/-- A well-behaved regex engine returns a match range that lies within
the haystack on UTF-8 boundaries (guaranteed by the `regex` crate). -/
def MatcherWf (M : Matcher) : Prop :=
  ∀ p vars h mr, M p vars h = some mr →
    mr.start ≤ mr.stop ∧ ByteBoundary h mr.start ∧ ByteBoundary h mr.stop

/-- `state.rs::TestRunState`. -/
structure TestRunState where
  complete_output_stream : List Char
  current_stream_byte_position : Nat
  complete_stderr : List Char
  vars : VarMap
deriving DecidableEq, Repr

/-- `TestRunState::new`. -/
def TestRunState.new (initial_variables : VarMap) : TestRunState :=
  ⟨[], 0, [], initial_variables⟩

/-- `TestRunState::append_program_output`. -/
def TestRunState.append_program_output (s : TestRunState) (out : List Char) :
    TestRunState :=
  { s with complete_output_stream := s.complete_output_stream ++ out }

/-- `TestRunState::append_program_stderr`. -/
def TestRunState.append_program_stderr (s : TestRunState) (err : List Char) :
    TestRunState :=
  { s with complete_stderr := s.complete_stderr ++ err }

/-- `TestRunState::unprocessed_output_stream`: the byte slice of the
output from the cursor on, decoded; `none` is the `expect` panic on a
non-boundary cursor. -/
def TestRunState.unprocessed (s : TestRunState) : Option (List Char) :=
  dropBytes s.current_stream_byte_position s.complete_output_stream

/-- `TestRunState::set_position_eof`. -/
def TestRunState.set_position_eof (s : TestRunState) : TestRunState :=
  { s with current_stream_byte_position := byteLen s.complete_output_stream }

/-- `TestRunState::eat_whitespace`: if the unprocessed slice starts with
whitespace, advance the cursor by the byte length of its maximal
whitespace prefix (the `0 ⇒ eof` arm mirrors the source's dead arm). -/
def TestRunState.eat_whitespace (s : TestRunState) : Option TestRunState := do
  let u ← s.unprocessed
  match u with
  | [] => pure s
  | c :: _ =>
    if rustIsWhitespace c then
      let off := byteLen (u.takeWhile rustIsWhitespace)
      if off = 0 then pure s.set_position_eof
      else pure { s with current_stream_byte_position := s.current_stream_byte_position + off }
    else pure s

/-- `TestRunState::eat_until_end_of_line`: advance past the next `\n`,
or to the end of the stream if there is none. -/
def TestRunState.eat_until_end_of_line (s : TestRunState) : Option TestRunState := do
  let u ← s.unprocessed
  match firstNewlineByteIdx u with
  | some i =>
    pure { s with current_stream_byte_position := s.current_stream_byte_position + (i + 1) }
  | none => pure s.set_position_eof

/-- `TestRunState::next_unprocessed_byte_index_of`: search the
unprocessed slice; on a match the named captures are merged into the
live variables.  Does not move the cursor. -/
def TestRunState.next_unprocessed_byte_index_of (M : Matcher) (p : TextPattern)
    (s : TestRunState) : Option (Option (Nat × Nat) × TestRunState) := do
  let u ← s.unprocessed
  match M p s.vars u with
  | some mr =>
    pure (some (mr.start, mr.stop), { s with vars := hmExtend s.vars mr.captures })
  | none => pure (none, s)

/-- `state.rs` lines 108-111: advance the cursor past the match end,
then eat the rest of the line. -/
def TestRunState.advance_past_match (stop : Nat) (s : TestRunState) :
    Option TestRunState :=
  TestRunState.eat_until_end_of_line
    { s with current_stream_byte_position := s.current_stream_byte_position + stop }

/-- The `CHECK-NEXT` failure hint string of `state.rs` line 100. -/
def checkNextHint (p : TextPattern) : List Char :=
  ("found a match for ").toList ++ squoteChar ::
    (renderPattern p ++ squoteChar ::
      (", but it does not appear on the next line, as required by the CHECK-NEXT directive").toList)

/-- `TestRunState::check_extended`. -/
def TestRunState.check_extended (M : Matcher) (p : TextPattern)
    (require_on_next_line : Bool) (s : TestRunState) :
    Option (TestResultKind × TestRunState) := do
  let s1 ← s.eat_whitespace
  let r ← s1.next_unprocessed_byte_index_of M p
  match r with
  | (some mr, s2) =>
    if require_on_next_line then do
      let u ← s2.unprocessed
      match firstNewlineByteIdx u with
      | some nl =>
        if nl ≤ mr.1 then
          pure (.Fail
            (.CheckFailed ⟨s2.complete_output_stream, s2.current_stream_byte_position, p⟩)
            (some (checkNextHint p)), s2)
        else
          (s2.advance_past_match mr.2).map (fun s4 => (.Pass, s4))
      | none => (s2.advance_past_match mr.2).map (fun s4 => (.Pass, s4))
    else
      (s2.advance_past_match mr.2).map (fun s4 => (.Pass, s4))
  | (none, s2) =>
    pure (.Fail
      (.CheckFailed ⟨s2.complete_output_stream, s2.current_stream_byte_position, p⟩)
      none, s2)

/-- `TestRunState::check`. -/
def TestRunState.check (M : Matcher) (p : TextPattern) (s : TestRunState) :
    Option (TestResultKind × TestRunState) :=
  s.check_extended M p false

/-- `TestRunState::check_next`. -/
def TestRunState.check_next (M : Matcher) (p : TextPattern) (s : TestRunState) :
    Option (TestResultKind × TestRunState) :=
  s.check_extended M p true

/-!
## The orchestrator (`run/test_evaluator.rs`, `run/mod.rs`)
-/

/-- A test file path (`model.rs::TestFilePath`). -/
structure TestFilePath where
  absolute : String
  relative : String
deriving DecidableEq, Repr

/-- A parsed test file (`model.rs::TestFile`). -/
structure TestFile where
  path : TestFilePath
  commands : List Command
deriving DecidableEq, Repr

/-- `TestFile::run_command_invocations`. -/
def TestFile.run_command_invocations (f : TestFile) : List Invocation :=
  f.commands.filterMap (fun c =>
    match c.kind with
    | .Run inv => some inv
    | _ => none)

/-- Modelled from the spec: `TestFile::is_expected_failure` is called by
`run_test_checks` but its definition is missing from the snapshot; per
the spec's XFAIL handling it holds exactly when the file contains an
`XFail` command. -/
def TestFile.is_expected_failure (f : TestFile) : Bool :=
  f.commands.any (fun c =>
    match c.kind with
    | .XFail => true
    | _ => false)

/-- `TestFile::variables` (`model.rs`): the test-file variable layer. -/
def TestFile.fileVariables (f : TestFile) : VarMap :=
  [(("file" : String), f.path.absolute)]

/-- The command walk of `run_test_checks` (lines 52-81): `Run` and
`XFail` are no-ops, checks run against the evaluator state, the first
erroneous result breaks the walk, otherwise the accumulator becomes
`Pass`.  The `cleanup_temporary_files` branch only unlinks files on
disk; it does not touch the evaluator state and is not modelled. -/
def walkCommands (M : Matcher) :
    List Command → TestResultKind → TestRunState →
    Option (TestResultKind × TestRunState)
  | [], acc, s => pure (acc, s)
  | c :: rest, acc, s => do
    let res ← (match c.kind with
      | .Run _ => pure (TestResultKind.Pass, s)
      | .XFail => pure (TestResultKind.Pass, s)
      | .Check p => s.check M p
      | .CheckNext p => s.check_next M p)
    if res.1.is_erroneous then pure (res.1, res.2)
    else walkCommands M rest .Pass res.2

/-- `run/test_evaluator.rs::run_test_checks`: walk the commands
(accumulator starts at `EmptyTest`), then post-process `Fail` for
XFAIL files. -/
def run_test_checks (M : Matcher) (s : TestRunState) (f : TestFile) :
    Option (TestResultKind × TestRunState) := do
  let r ← walkCommands M f.commands .EmptyTest s
  match r with
  | (.Fail reason hint, s') =>
    if f.is_expected_failure then pure (.ExpectedFailure reason, s')
    else pure (.Fail reason hint, s')
  | r => pure r

/-- Captured output of one RUN (`model.rs::ProgramOutput`). -/
structure ProgramOutput where
  stdout : String
  stderr : String
deriving DecidableEq, Repr

/-- Oracle for one subprocess execution: models `build_command` plus
`collect_output` (shell spawn, capture, exit-status classification). -/
abbrev Executor := Invocation → ProgramOutput × TestResultKind

/-- `run/test_evaluator.rs::execute_tests`: for each RUN invocation,
seed an evaluator state with constants + file variables and the raw
captured output, then (unless execution itself was erroneous) walk the
checks. -/
def execute_tests (M : Matcher) (E : Executor) (constants : VarMap)
    (f : TestFile) : Option (List (TestResultKind × Invocation × ProgramOutput)) :=
  f.run_command_invocations.mapM (fun inv => do
    let initial_variables := hmExtend (hmExtend [] constants) f.fileVariables
    let s0 := TestRunState.new initial_variables
    let (program_output, execution_result) := E inv
    let s1 := (s0.append_program_output program_output.stdout.toList).append_program_stderr
      program_output.stderr.toList
    if execution_result.is_erroneous then
      pure (execution_result, inv, program_output)
    else do
      let r ← run_test_checks M s1 f
      pure (r.1, inv, program_output))

/-- The overall-result computation of `run/mod.rs::single_file` line 80:
the first erroneous per-RUN result, else `Pass`. -/
def overallResult (results : List (TestResultKind × Invocation × ProgramOutput)) :
    TestResultKind :=
  (((results.map (fun t => t.1)).filter (fun r => r.is_erroneous)).head?).getD .Pass

/-!
## Spec-side reference definitions
-/

/-- Right-trim trailing whitespace from a string (Rust `str::trim_end`
semantics). -/
def rtrimWs (l : List Char) : List Char :=
  (l.reverse.dropWhile rustIsWhitespace).reverse

/-- Modelled from the spec, for comparison only: "stdout is
line-trimmed: each line is right-trimmed of whitespace; lines are
rejoined with `\n`". -/
def specRightTrimStdout (s : List Char) : List Char :=
  (((s.splitOn '\n').map rtrimWs).intersperse ['\n']).flatten

/-!
## Derived notions and concrete fixtures
-/

/-- The evaluator cursor sits on a UTF-8 code-point boundary of the
output stream. -/
def CursorOnBoundary (s : TestRunState) : Prop :=
  ByteBoundary s.complete_output_stream s.current_stream_byte_position

/-- A sequence of `check` / `check_next` operations (`true` marks
`check_next`), threaded through the evaluator state. -/
def runCheckSequence (M : Matcher) (ops : List (TextPattern × Bool))
    (s : TestRunState) : Option TestRunState :=
  ops.foldlM (fun st op => (st.check_extended M op.1 op.2).map Prod.snd) s

/-- Restriction of Rust `char::is_alphanumeric` used for concrete
inputs; it agrees with the Unicode property on every ASCII character,
and every concrete input below is ASCII. -/
def asciiIsAlphanumeric (c : Char) : Bool := c.isAlphanum

/-- A matcher oracle that never finds a match (the behaviour of a
compiled pattern on haystacks it does not occur in). -/
def matcherNone : Matcher := fun _ _ _ => none

/-- A matcher oracle returning a fixed match on one fixed haystack
(used to realise concrete regex-engine behaviours). -/
def matcherConst (h0 : List Char) (mr : MatchResult) : Matcher :=
  fun _ _ h => if h = h0 then some mr else none

/-- An executor whose process prints the given output and exits 0. -/
def executorPass (out : ProgramOutput) : Executor := fun _ => (out, .Pass)

/-- A one-literal pattern fixture. -/
def patQ : TextPattern := ⟨[.Text ['q']]⟩

/-- The run `t` is consumed purely as literal text by the scanner when
followed by `rest`: it contains no `@`, and no `$`/`[` that the scanner
would pair with a following `$`/`[` (looking across the boundary into
`rest`). -/
def textPassable : List Char → List Char → Bool
  | [], _ => true
  | c :: t, rest =>
    (!(c = '@' : Bool)) &&
    (!(c = '$' && (t ++ rest).head? == some '$')) &&
    (!(c = '[' && (t ++ rest).head? == some '[')) &&
    textPassable t rest

/-- Bracket-balance scan of a `[[ ... ]]` body starting at depth `lvl`:
every `]` must close an earlier `[` (depth never goes negative) and the
final depth is `lvl`'s baseline 0. -/
def balFrom : Int → List Char → Bool
  | lvl, [] => lvl == 0
  | lvl, c :: cs =>
    if c = '[' then balFrom (lvl + 1) cs
    else if c = ']' then decide (0 < lvl) && balFrom (lvl - 1) cs
    else balFrom lvl cs

/-- A bracket-balanced regex fragment. -/
def balancedFrag (r : List Char) : Bool := balFrom 0 r

/-- Every character of `l` is a single UTF-8 byte (ASCII). -/
def singleByte (l : List Char) : Bool := l.all (fun c => utf8Len c == 1)

/-- Every bracketed fragment of the pattern is bracket-balanced (for a
named fragment, the scanned body is `name ++ ":" ++ regex`). -/
def patternBalanced (p : TextPattern) : Bool :=
  p.components.all (fun c =>
    match c with
    | .Regex r => balancedFrag r
    | .NamedRegex n r => balancedFrag (n ++ ':' :: r)
    | _ => true)

/-- Every variable/constant name of the pattern is ASCII. -/
def patternNamesSingleByte (p : TextPattern) : Bool :=
  p.components.all (fun c =>
    match c with
    | .Variable n => singleByte n
    | .Constant n => singleByte n
    | _ => true)

/-- The rendering of a component list (`renderPattern` of the wrapped
pattern). -/
def renderComps (l : List PatternComponent) : List Char :=
  (l.map renderComponent).flatten

/-- The first character of `renderComps l`, computed structurally. -/
def firstRenderChar : List PatternComponent → Option Char
  | [] => none
  | .Text [] :: rest => firstRenderChar rest
  | .Text (c :: _) :: _ => some c
  | .Variable _ :: _ => some '$'
  | .Regex _ :: _ => some '['
  | .NamedRegex _ _ :: _ => some '['
  | .Constant _ :: _ => some '@'

/-- Well-formed component lists: the shape invariant of `parseComps`
output (alternating `Text`/non-`Text`, names nonempty maximal
alphanumeric runs, fragments consistent with `classifyFrag`), plus the
two side conditions of the amended round-trip claim (fragments
balanced, names ASCII).  Re-parsing the rendering of such a list
recovers it exactly. -/
inductive CompsWf (ia : Char → Bool) : List PatternComponent → Prop
  | lastText (t : List Char) (ht : textPassable t [] = true) :
      CompsWf ia [.Text t]
  | varCons (t name : List Char) (rest : List PatternComponent)
      (ht : textPassable t ('$' :: '$' :: (name ++ renderComps rest)) = true)
      (hname : name ≠ [])
      (hall : name.all ia = true)
      (hsb : singleByte name = true)
      (hnext : ∀ c, firstRenderChar rest = some c → ia c = false)
      (hrest : CompsWf ia rest) :
      CompsWf ia (.Text t :: .Variable name :: rest)
  | constCons (t name : List Char) (rest : List PatternComponent)
      (ht : textPassable t ('@' :: (name ++ renderComps rest)) = true)
      (hname : name ≠ [])
      (hall : name.all ia = true)
      (hsb : singleByte name = true)
      (hnext : ∀ c, firstRenderChar rest = some c → ia c = false)
      (hrest : CompsWf ia rest) :
      CompsWf ia (.Text t :: .Constant name :: rest)
  | regexCons (t r : List Char) (rest : List PatternComponent)
      (ht : textPassable t ('[' :: '[' :: (r ++ ']' :: ']' :: renderComps rest)) = true)
      (hbal : balancedFrag r = true)
      (hclass : classifyFrag r = some (.Regex r))
      (hrest : CompsWf ia rest) :
      CompsWf ia (.Text t :: .Regex r :: rest)
  | namedCons (t n r : List Char) (rest : List PatternComponent)
      (ht : textPassable t
        ('[' :: '[' :: ((n ++ ':' :: r) ++ ']' :: ']' :: renderComps rest)) = true)
      (hbal : balancedFrag (n ++ ':' :: r) = true)
      (hclass : classifyFrag (n ++ ':' :: r) = some (.NamedRegex n r))
      (hrest : CompsWf ia rest) :
      CompsWf ia (.Text t :: .NamedRegex n r :: rest)

/-!
## Byte-arithmetic infrastructure
-/

theorem utf8Len_pos (c : Char) : 0 < utf8Len c := by
  unfold utf8Len
  split_ifs <;> norm_num

theorem byteLen_append (a b : List Char) :
    byteLen (a ++ b) = byteLen a + byteLen b := by
  induction a with
  | nil => simp [byteLen]
  | cons c cs ih => simp [byteLen, ih]; omega

theorem dropBytes_byteLen_append (pre post : List Char) :
    dropBytes (byteLen pre) (pre ++ post) = some post := by
  induction pre with
  | nil => simp [byteLen, dropBytes]
  | cons c cs ih =>
    have hc := utf8Len_pos c
    obtain ⟨k, hk⟩ : ∃ k, byteLen (c :: cs) = k + 1 :=
      ⟨byteLen (c :: cs) - 1, by simp [byteLen]; omega⟩
    rw [hk]
    have hle : utf8Len c ≤ k + 1 := by simp [byteLen] at hk; omega
    have hsub : k + 1 - utf8Len c = byteLen cs := by simp [byteLen] at hk; omega
    simp [dropBytes, hle, hsub, ih]

theorem dropBytes_some_decomp {n : Nat} {l u : List Char}
    (h : dropBytes n l = some u) :
    ∃ pre, l = pre ++ u ∧ byteLen pre = n := by
  induction l generalizing n with
  | nil =>
    cases n with
    | zero =>
      refine ⟨[], ?_, rfl⟩
      simpa [dropBytes] using h
    | succ m => simp [dropBytes] at h
  | cons c cs ih =>
    cases n with
    | zero =>
      refine ⟨[], ?_, rfl⟩
      simpa [dropBytes] using h
    | succ m =>
      by_cases hle : utf8Len c ≤ m + 1
      · rw [dropBytes, if_pos hle] at h
        obtain ⟨pre, hpre, hlen⟩ := ih h
        exact ⟨c :: pre, by simp [hpre], by simp [byteLen, hlen]; omega⟩
      · rw [dropBytes, if_neg hle] at h
        cases h

theorem byteTake_some_decomp {n : Nat} {l pre : List Char}
    (h : byteTake n l = some pre) :
    ∃ post, l = pre ++ post ∧ byteLen pre = n := by
  induction l generalizing n pre with
  | nil =>
    cases n with
    | zero =>
      simp only [byteTake, Option.some.injEq] at h
      exact ⟨[], by simp [← h], by simp [← h, byteLen]⟩
    | succ m => simp [byteTake] at h
  | cons c cs ih =>
    cases n with
    | zero =>
      simp only [byteTake, Option.some.injEq] at h
      exact ⟨c :: cs, by simp [← h], by simp [← h, byteLen]⟩
    | succ m =>
      by_cases hle : utf8Len c ≤ m + 1
      · rw [byteTake, if_pos hle] at h
        obtain ⟨pre', hpre', hmap⟩ := Option.map_eq_some'.mp h
        obtain ⟨post, hdec, hlen⟩ := ih hpre'
        exact ⟨post, by simp [← hmap, hdec], by simp [← hmap, byteLen, hlen]; omega⟩
      · rw [byteTake, if_neg hle] at h
        cases h

theorem firstNewline_some_decomp {u : List Char} {i : Nat}
    (h : firstNewlineByteIdx u = some i) :
    ∃ a b, u = a ++ '\n' :: b ∧ byteLen a = i := by
  induction u generalizing i with
  | nil => simp [firstNewlineByteIdx] at h
  | cons c cs ih =>
    by_cases hc : c = '\n'
    · rw [firstNewlineByteIdx, if_pos hc] at h
      cases h
      exact ⟨[], cs, by simp [hc], rfl⟩
    · rw [firstNewlineByteIdx, if_neg hc] at h
      obtain ⟨j, hj, hmap⟩ := Option.map_eq_some'.mp h
      obtain ⟨a, b, hdec, hlen⟩ := ih hj
      exact ⟨c :: a, b, by simp [hdec], by simp [byteLen, hlen, ← hmap]⟩

theorem byteBoundary_zero (l : List Char) : ByteBoundary l 0 :=
  ⟨[], l, rfl, rfl⟩

theorem byteBoundary_byteLen (l : List Char) : ByteBoundary l (byteLen l) :=
  ⟨l, [], by simp, rfl⟩

theorem byteBoundary_le {l : List Char} {n : Nat} (h : ByteBoundary l n) :
    n ≤ byteLen l := by
  obtain ⟨pre, post, rfl, rfl⟩ := h
  simp [byteLen_append]

theorem boundary_of_dropBytes {n : Nat} {l u : List Char}
    (h : dropBytes n l = some u) : ByteBoundary l n := by
  obtain ⟨pre, hpre, hlen⟩ := dropBytes_some_decomp h
  exact ⟨pre, u, hpre, hlen⟩

theorem dropBytes_of_boundary {l : List Char} {n : Nat}
    (h : ByteBoundary l n) : ∃ u, dropBytes n l = some u := by
  obtain ⟨pre, post, rfl, rfl⟩ := h
  exact ⟨post, dropBytes_byteLen_append pre post⟩

/-!
## Evaluator-state infrastructure
-/

theorem unprocessed_decomp {s : TestRunState} {u : List Char}
    (h : s.unprocessed = some u) :
    ∃ pre, s.complete_output_stream = pre ++ u ∧
      byteLen pre = s.current_stream_byte_position :=
  dropBytes_some_decomp h

theorem eat_whitespace_eq {s : TestRunState} {u : List Char}
    (h : s.unprocessed = some u) :
    s.eat_whitespace = some
      { s with current_stream_byte_position :=
          s.current_stream_byte_position + byteLen (u.takeWhile rustIsWhitespace) } := by
  obtain ⟨out, pos, err, vs⟩ := s
  rw [TestRunState.eat_whitespace, h]
  cases u with
  | nil => simp [byteLen]
  | cons c cs =>
    by_cases hw : rustIsWhitespace c
    · have hpos := utf8Len_pos c
      have hne : utf8Len c + byteLen (cs.takeWhile rustIsWhitespace) ≠ 0 := by omega
      simp [hw, List.takeWhile_cons, byteLen, hne]
    · simp [List.takeWhile_cons, hw, byteLen]

theorem eat_whitespace_fields {s s1 : TestRunState} {u : List Char}
    (h : s.unprocessed = some u) (he : s.eat_whitespace = some s1) :
    s1.complete_output_stream = s.complete_output_stream ∧
    s1.vars = s.vars ∧
    s1.complete_stderr = s.complete_stderr ∧
    s1.current_stream_byte_position =
      s.current_stream_byte_position + byteLen (u.takeWhile rustIsWhitespace) ∧
    s1.unprocessed = some (u.dropWhile rustIsWhitespace) := by
  rw [eat_whitespace_eq h] at he
  obtain rfl := Option.some.inj he
  obtain ⟨pre, hpre, hlen⟩ := unprocessed_decomp h
  refine ⟨rfl, rfl, rfl, rfl, ?_⟩
  show dropBytes _ _ = _
  have hsplit : s.complete_output_stream =
      (pre ++ u.takeWhile rustIsWhitespace) ++ u.dropWhile rustIsWhitespace := by
    rw [hpre, List.append_assoc, List.takeWhile_append_dropWhile]
  have hlen2 : byteLen (pre ++ u.takeWhile rustIsWhitespace) =
      s.current_stream_byte_position + byteLen (u.takeWhile rustIsWhitespace) := by
    rw [byteLen_append, hlen]
  simp only [hsplit, ← hlen2]
  exact dropBytes_byteLen_append _ _

theorem eat_until_end_of_line_spec {s : TestRunState} {u : List Char}
    (h : s.unprocessed = some u) :
    ∃ s' u', s.eat_until_end_of_line = some s' ∧ s'.unprocessed = some u' ∧
      s'.complete_output_stream = s.complete_output_stream ∧
      s'.vars = s.vars ∧ s'.complete_stderr = s.complete_stderr := by
  obtain ⟨pre, hpre, hlen⟩ := unprocessed_decomp h
  cases hnl : firstNewlineByteIdx u with
  | some i =>
    obtain ⟨a, b, hdec, halen⟩ := firstNewline_some_decomp hnl
    have heq : s.eat_until_end_of_line = some
        { s with current_stream_byte_position :=
            s.current_stream_byte_position + (i + 1) } := by
      simp [TestRunState.eat_until_end_of_line, h, hnl]
    refine ⟨_, b, heq, ?_, rfl, rfl, rfl⟩
    show dropBytes _ _ = _
    have h10 : utf8Len '\n' = 1 := by decide
    have hsplit : s.complete_output_stream = (pre ++ a ++ ['\n']) ++ b := by
      simp [hpre, hdec]
    have hlen2 : byteLen (pre ++ a ++ ['\n']) =
        s.current_stream_byte_position + (i + 1) := by
      simp only [byteLen_append, hlen, halen, byteLen, h10]
      omega
    simp only [hsplit, ← hlen2]
    exact dropBytes_byteLen_append _ _
  | none =>
    have heq : s.eat_until_end_of_line = some s.set_position_eof := by
      simp [TestRunState.eat_until_end_of_line, h, hnl]
    refine ⟨_, [], heq, ?_, rfl, rfl, rfl⟩
    show dropBytes (byteLen s.complete_output_stream) s.complete_output_stream = some []
    simpa using dropBytes_byteLen_append s.complete_output_stream []

theorem advance_past_match_spec {s : TestRunState} {u : List Char} {e : Nat}
    (h : s.unprocessed = some u) (hb : ByteBoundary u e) :
    ∃ s' u', s.advance_past_match e = some s' ∧ s'.unprocessed = some u' ∧
      s'.complete_output_stream = s.complete_output_stream ∧
      s'.vars = s.vars ∧ s'.complete_stderr = s.complete_stderr := by
  obtain ⟨pre, hpre, hlen⟩ := unprocessed_decomp h
  obtain ⟨u1, u2, rfl, hu1⟩ := hb
  have hmid : ({ s with current_stream_byte_position :=
      s.current_stream_byte_position + e } : TestRunState).unprocessed = some u2 := by
    show dropBytes _ _ = _
    have hsplit : s.complete_output_stream = (pre ++ u1) ++ u2 := by simp [hpre]
    have hlen2 : byteLen (pre ++ u1) = s.current_stream_byte_position + e := by
      rw [byteLen_append, hlen, hu1]
    simp only [hsplit, ← hlen2]
    exact dropBytes_byteLen_append _ _
  obtain ⟨s', u', h1, h2, h3, h4, h5⟩ := eat_until_end_of_line_spec hmid
  exact ⟨s', u', h1, h2, h3, h4, h5⟩

/-!
## Characterisation of `check_extended`
-/

theorem next_unprocessed_none {M : Matcher} {p : TextPattern}
    {s : TestRunState} {u : List Char}
    (hu : s.unprocessed = some u) (hm : M p s.vars u = none) :
    s.next_unprocessed_byte_index_of M p = some (none, s) := by
  simp [TestRunState.next_unprocessed_byte_index_of, hu, hm]

theorem next_unprocessed_some {M : Matcher} {p : TextPattern}
    {s : TestRunState} {u : List Char} {mr : MatchResult}
    (hu : s.unprocessed = some u) (hm : M p s.vars u = some mr) :
    s.next_unprocessed_byte_index_of M p =
      some (some (mr.start, mr.stop), { s with vars := hmExtend s.vars mr.captures }) := by
  simp [TestRunState.next_unprocessed_byte_index_of, hu, hm]

theorem check_extended_no_match {M : Matcher} {p : TextPattern} {req : Bool}
    {s s1 : TestRunState} {u : List Char}
    (h1 : s.eat_whitespace = some s1) (hu : s1.unprocessed = some u)
    (hm : M p s1.vars u = none) :
    s.check_extended M p req = some
      (.Fail (.CheckFailed
        ⟨s1.complete_output_stream, s1.current_stream_byte_position, p⟩) none, s1) := by
  simp [TestRunState.check_extended, h1, next_unprocessed_none hu hm]

theorem check_extended_hint_fail {M : Matcher} {p : TextPattern}
    {s s1 : TestRunState} {u : List Char} {mr : MatchResult} {nl : Nat}
    (h1 : s.eat_whitespace = some s1) (hu : s1.unprocessed = some u)
    (hm : M p s1.vars u = some mr)
    (hnl : firstNewlineByteIdx u = some nl) (hge : nl ≤ mr.start) :
    s.check_extended M p true = some
      (.Fail (.CheckFailed
        ⟨s1.complete_output_stream, s1.current_stream_byte_position, p⟩)
        (some (checkNextHint p)),
        { s1 with vars := hmExtend s1.vars mr.captures }) := by
  have hu2 : ({ s1 with vars := hmExtend s1.vars mr.captures } : TestRunState).unprocessed
      = some u := hu
  simp [TestRunState.check_extended, h1, next_unprocessed_some hu hm, hu2, hnl, hge]

theorem check_extended_advance_eq {M : Matcher} {p : TextPattern} {req : Bool}
    {s s1 : TestRunState} {u : List Char} {mr : MatchResult}
    (h1 : s.eat_whitespace = some s1) (hu : s1.unprocessed = some u)
    (hm : M p s1.vars u = some mr)
    (hok : req = true → ∀ nl, firstNewlineByteIdx u = some nl → mr.start < nl) :
    s.check_extended M p req =
      (({ s1 with vars := hmExtend s1.vars mr.captures } : TestRunState).advance_past_match
        mr.stop).map (fun s4 => (.Pass, s4)) := by
  have hu2 : ({ s1 with vars := hmExtend s1.vars mr.captures } : TestRunState).unprocessed
      = some u := hu
  cases req with
  | false => simp [TestRunState.check_extended, h1, next_unprocessed_some hu hm]
  | true =>
    cases hnl : firstNewlineByteIdx u with
    | none => simp [TestRunState.check_extended, h1, next_unprocessed_some hu hm, hu2, hnl]
    | some nl =>
      have hlt : ¬ nl ≤ mr.start := by
        have := hok rfl nl hnl
        omega
      simp [TestRunState.check_extended, h1, next_unprocessed_some hu hm, hu2, hnl, hlt]

theorem check_extended_fail_state {M : Matcher} {p : TextPattern} {req : Bool}
    {s s1 t : TestRunState} {u : List Char}
    {reason : TestFailReason} {hint : Option (List Char)}
    (h1 : s.eat_whitespace = some s1) (hu : s1.unprocessed = some u)
    (h : s.check_extended M p req = some (.Fail reason hint, t)) :
    t.complete_output_stream = s1.complete_output_stream ∧
    t.current_stream_byte_position = s1.current_stream_byte_position ∧
    reason = .CheckFailed
      ⟨s1.complete_output_stream, s1.current_stream_byte_position, p⟩ := by
  cases hm : M p s1.vars u with
  | none =>
    rw [check_extended_no_match h1 hu hm] at h
    obtain ⟨h2, rfl⟩ : (TestResultKind.Fail _ none : TestResultKind) =
        .Fail reason hint ∧ s1 = t := by
      constructor
      · exact congrArg Prod.fst (Option.some.inj h)
      · exact congrArg Prod.snd (Option.some.inj h)
    cases h2
    exact ⟨rfl, rfl, rfl⟩
  | some mr =>
    by_cases hcond : req = true ∧ ∃ nl, firstNewlineByteIdx u = some nl ∧ nl ≤ mr.start
    · obtain ⟨hreq, nl, hnl, hge⟩ := hcond
      subst hreq
      rw [check_extended_hint_fail h1 hu hm hnl hge] at h
      obtain ⟨h2, rfl⟩ : (TestResultKind.Fail _ (some (checkNextHint p)) : TestResultKind) =
          .Fail reason hint ∧ { s1 with vars := hmExtend s1.vars mr.captures } = t := by
        constructor
        · exact congrArg Prod.fst (Option.some.inj h)
        · exact congrArg Prod.snd (Option.some.inj h)
      cases h2
      exact ⟨rfl, rfl, rfl⟩
    · have hok : req = true → ∀ nl, firstNewlineByteIdx u = some nl → mr.start < nl := by
        intro hreq nl hnl
        by_contra hlt
        exact hcond ⟨hreq, nl, hnl, by omega⟩
      rw [check_extended_advance_eq h1 hu hm hok] at h
      exfalso
      cases hadv : ({ s1 with vars := hmExtend s1.vars mr.captures } :
          TestRunState).advance_past_match mr.stop with
      | none => rw [hadv] at h; cases h
      | some s4 =>
        rw [hadv] at h
        have := congrArg Prod.fst (Option.some.inj h)
        cases this

/-!
## Claim C1
-/

/-- C1, corrected form.  Whenever `check`/`check_next` returns a `Fail`
outcome, the final cursor equals the starting cursor advanced by
exactly the byte length of the leading-whitespace run of the
unprocessed slice: a failed check consumes the leading whitespace (the
shared `eat_whitespace` step runs before matching and is not undone),
and nothing else; the output stream itself is untouched. -/
theorem c1_fail_consumes_only_leading_whitespace
    {M : Matcher} {p : TextPattern} {req : Bool} {s t : TestRunState}
    {u : List Char} {reason : TestFailReason} {hint : Option (List Char)}
    (hu : s.unprocessed = some u)
    (h : s.check_extended M p req = some (.Fail reason hint, t)) :
    t.complete_output_stream = s.complete_output_stream ∧
    t.current_stream_byte_position =
      s.current_stream_byte_position + byteLen (u.takeWhile rustIsWhitespace) := by
  have h1 := eat_whitespace_eq hu
  obtain ⟨ho, hv, he, hp, hu1⟩ := eat_whitespace_fields hu h1
  obtain ⟨f1, f2, _⟩ := check_extended_fail_state h1 hu1 h
  exact ⟨f1.trans ho, f2.trans hp⟩

/-- Witness for the corrected C1 at a concrete input. -/
theorem c1_fail_consumes_only_leading_whitespace_witness :
    ((TestRunState.mk (("  z").toList) 0 [] []).check matcherNone patQ =
      some (.Fail (.CheckFailed ⟨("  z").toList, 2, patQ⟩) none,
        TestRunState.mk (("  z").toList) 2 [] [])) ∧
    (TestRunState.mk (("  z").toList) 2 [] []).complete_output_stream =
      (TestRunState.mk (("  z").toList) 0 [] []).complete_output_stream ∧
    (TestRunState.mk (("  z").toList) 2 [] []).current_stream_byte_position =
      0 + byteLen ((("  z").toList).takeWhile rustIsWhitespace) := by
  have h : (TestRunState.mk (("  z").toList) 0 [] []).check matcherNone patQ =
      some (.Fail (.CheckFailed ⟨("  z").toList, 2, patQ⟩) none,
        TestRunState.mk (("  z").toList) 2 [] []) := by decide
  refine ⟨h, ?_⟩
  exact c1_fail_consumes_only_leading_whitespace
    (show (TestRunState.mk (("  z").toList) 0 [] []).unprocessed =
      some (("  z").toList) from by decide) h

/-- Counterexample to C1 as stated: on output `"  z"` with the cursor
at 0, a failing `check` of the pattern `q` leaves the cursor at byte 2,
not at its pre-call value 0 — the leading whitespace of the
unprocessed slice has been consumed. -/
theorem c1_counterexample :
    (TestRunState.mk (("  z").toList) 0 [] []).check matcherNone patQ =
      some (.Fail (.CheckFailed ⟨("  z").toList, 2, patQ⟩) none,
        TestRunState.mk (("  z").toList) 2 [] []) ∧
    (TestRunState.mk (("  z").toList) 0 [] []).current_stream_byte_position = 0 ∧
    (2 : Nat) ≠ 0 := by
  refine ⟨by decide, rfl, by decide⟩

/-!
## Claim C5
-/

/-- Counterexample to C5 as stated: resolving the one-component pattern
`$$v` with the live value of `v` equal to `"."` produces the regex
string `"."` — the resolved value is substituted verbatim, not in its
regex-escaped form `"\."` (`.` is a regex metacharacter matching any
character). -/
theorem c5_counterexample :
    resolveTextPattern
      (fun k => if k = ("v" : String) then some ("." : String) else none)
      ⟨[.Variable ['v']]⟩ = some ['.'] ∧
    regexEscape (("." : String).toList) = ['\\', '.'] ∧
    (['.'] : List Char) ≠ ['\\', '.'] := by
  refine ⟨by decide, by decide, by decide⟩

/-- C5, corrected form: the regex part emitted for a `Variable` or
`Constant` component is the looked-up value *verbatim* (only `Text`
components are regex-escaped). -/
theorem c5_resolution_substitutes_verbatim
    (lookup : String → Option String) (name : List Char) (value : String)
    (h : lookup (String.mk name) = some value) :
    resolveTextPattern lookup ⟨[.Variable name]⟩ = some value.toList ∧
    resolveTextPattern lookup ⟨[.Constant name]⟩ = some value.toList := by
  constructor <;>
    simp [resolveTextPattern, List.mapM, List.mapM.loop, resolveComponent, h]

/-!
## Parser scanning lemmas
-/

theorem parseComps_literal_step (ia : Char → Bool) (c : Char) (rest acc : List Char)
    (hc1 : ¬(c = '$' ∧ rest.head? = some '$'))
    (hc2 : ¬(c = '[' ∧ rest.head? = some '['))
    (hc3 : c ≠ '@') :
    parseComps ia (c :: rest) acc = parseComps ia rest (acc ++ [c]) := by
  rw [parseComps.eq_def]
  split
  · rename_i heq
    injection heq with h1 h2
    subst h1
    exact absurd ⟨rfl, by rw [h2]; rfl⟩ hc1
  · rename_i heq
    injection heq with h1 h2
    subst h1
    exact absurd ⟨rfl, by rw [h2]; rfl⟩ hc2
  · rename_i heq
    injection heq with h1 h2
    exact absurd h1 hc3
  · rename_i hat heq
    injection heq with h1 h2
    subst h1
    subst h2
    rfl
  · rename_i heq
    cases heq

theorem parseComps_literal_append (ia : Char → Bool) (t rest acc : List Char)
    (ht : textPassable t rest = true) :
    parseComps ia (t ++ rest) acc = parseComps ia rest (acc ++ t) := by
  induction t generalizing acc with
  | nil => simp
  | cons c t ih =>
    rw [textPassable] at ht
    simp only [Bool.and_eq_true, Bool.not_eq_eq_eq_not, Bool.not_true] at ht
    obtain ⟨⟨⟨hat, hd⟩, hb⟩, hrest⟩ := ht
    rw [List.cons_append, parseComps_literal_step ia c (t ++ rest) acc ?_ ?_ ?_]
    · rw [ih _ hrest]
      simp
    · rintro ⟨rfl, hh⟩
      rw [hh] at hd
      simp at hd
    · rintro ⟨rfl, hh⟩
      rw [hh] at hb
      simp at hb
    · intro hcc
      rw [hcc] at hat
      simp at hat

/-!
## Claim C10
-/

/-- C10: `parse.rs::text_pattern` is not total.  (1) A `$$` marker whose
following maximal alphanumeric run is empty makes `name.len() - 1`
underflow, so parsing panics (`none`); (2) likewise for an `@` marker
reached in literal context; (3) therefore `possible_command` on the
directive `CHECK: $$` panics rather than returning a parse-error value;
and (4) the concrete input `foo@` panics. -/
theorem c10_marker_without_name_panics :
    (∀ (ia : Char → Bool) (r : List Char), r.takeWhile ia = [] →
      parseTextPattern ia ('$' :: '$' :: r) = none) ∧
    (∀ (ia : Char → Bool) (t r : List Char),
      textPassable t ('@' :: r) = true → r.takeWhile ia = [] →
      parseTextPattern ia (t ++ '@' :: r) = none) ∧
    possibleCommand asciiIsAlphanumeric (("CHECK: $$").toList) 1 = .panicked ∧
    parseTextPattern asciiIsAlphanumeric (("foo@").toList) = none := by
  have part1 : ∀ (ia : Char → Bool) (r : List Char), r.takeWhile ia = [] →
      parseTextPattern ia ('$' :: '$' :: r) = none := by
    intro ia r h
    rw [parseTextPattern, parseComps.eq_def]
    simp [h]
  have part2 : ∀ (ia : Char → Bool) (t r : List Char),
      textPassable t ('@' :: r) = true → r.takeWhile ia = [] →
      parseTextPattern ia (t ++ '@' :: r) = none := by
    intro ia t r ht h
    rw [parseTextPattern, parseComps_literal_append ia t ('@' :: r) [] ht,
      parseComps.eq_def]
    simp [h]
  refine ⟨part1, part2, ?_, ?_⟩
  · simp [possibleCommand, findDirective, trimBoth, rustIsWhitespace,
      isDirectiveKeyChar, parseComps]
  · have := part2 asciiIsAlphanumeric (['f', 'o', 'o']) [] (by decide) rfl
    simpa using this

/-- Witness for C10 at concrete inputs. -/
theorem c10_marker_without_name_panics_witness :
    parseTextPattern asciiIsAlphanumeric ('$' :: '$' :: []) = none :=
  c10_marker_without_name_panics.1 asciiIsAlphanumeric [] rfl

/-!
## Claim C4
-/

/-- Counterexample to C4 as stated: a test file containing a `CHECK`
command and zero `RUN` commands gets overall result `Pass` from
`single_file`'s overall-result computation, not `Skip`. -/
theorem c4_counterexample :
    (execute_tests matcherNone (executorPass ⟨"", ""⟩) []
      ⟨⟨"t", "t"⟩, [⟨1, .Check patQ⟩]⟩).map overallResult =
      some .Pass ∧
    TestResultKind.Pass ≠ TestResultKind.Skip := by
  refine ⟨by decide, by decide⟩

/-- C4, corrected form: a test file with zero `Run` commands produces an
empty per-RUN result list, and the overall result computed by
`single_file` is `Pass` (no `Skip` result is ever produced on this
path), regardless of which other commands the file contains. -/
theorem c4_no_run_commands_pass (M : Matcher) (E : Executor) (constants : VarMap)
    (f : TestFile) (h : f.run_command_invocations = []) :
    execute_tests M E constants f = some [] ∧
    (execute_tests M E constants f).map overallResult = some .Pass := by
  have he : execute_tests M E constants f = some [] := by
    rw [execute_tests, h]
    rfl
  refine ⟨he, ?_⟩
  rw [he]
  rfl

/-- Witness for the corrected C4 at a concrete input. -/
theorem c4_no_run_commands_pass_witness :
    execute_tests matcherNone (executorPass ⟨"", ""⟩) []
      ⟨⟨"t", "t"⟩, [⟨1, .Check patQ⟩, ⟨2, .XFail⟩]⟩ = some [] ∧
    (execute_tests matcherNone (executorPass ⟨"", ""⟩) []
      ⟨⟨"t", "t"⟩, [⟨1, .Check patQ⟩, ⟨2, .XFail⟩]⟩).map overallResult =
      some .Pass :=
  c4_no_run_commands_pass matcherNone (executorPass ⟨"", ""⟩) []
    ⟨⟨"t", "t"⟩, [⟨1, .Check patQ⟩, ⟨2, .XFail⟩]⟩ (by decide)

/-!
## Claim C3
-/

/-- Counterexample to C3 as stated: a file containing `XFail` whose
command walk produces `Pass` (here: only `XFail` and `Run` commands,
both no-ops in the walk) yields `Pass` from `run_test_checks`, not
`UnexpectedPass`. -/
theorem c3_counterexample :
    run_test_checks matcherNone (TestRunState.new [])
      ⟨⟨"t", "t"⟩, [⟨1, .XFail⟩, ⟨2, .Run ⟨"echo"⟩⟩]⟩ =
      some (.Pass, TestRunState.new []) ∧
    TestResultKind.Pass ≠ TestResultKind.UnexpectedPass := by
  refine ⟨by decide, by decide⟩

/-- C3, corrected form: with an `XFail` command present, only a walked
`Fail` result is rewritten, to `ExpectedFailure` (carrying the failure
reason); a walked `Pass` stays `Pass` (no `UnexpectedPass`), and a
walked `Error` stays `Error` (no `ExpectedFailure`). -/
theorem c3_xfail_rewrites_only_fail (M : Matcher) (s s' : TestRunState)
    (f : TestFile) (r : TestResultKind)
    (hx : f.is_expected_failure = true)
    (hw : walkCommands M f.commands .EmptyTest s = some (r, s')) :
    (∀ reason hint, r = .Fail reason hint →
      run_test_checks M s f = some (.ExpectedFailure reason, s')) ∧
    (r = .Pass → run_test_checks M s f = some (.Pass, s')) ∧
    (∀ msg, r = .Error msg → run_test_checks M s f = some (.Error msg, s')) := by
  refine ⟨?_, ?_, ?_⟩
  · intro reason hint hr
    subst hr
    simp [run_test_checks, hw, hx]
  · intro hr
    subst hr
    simp [run_test_checks, hw]
  · intro msg hr
    subst hr
    simp [run_test_checks, hw]

/-- Witness for the corrected C3 at a concrete input. -/
theorem c3_xfail_rewrites_only_fail_witness :
    run_test_checks matcherNone (TestRunState.new [])
      ⟨⟨"t", "t"⟩, [⟨1, .XFail⟩]⟩ = some (.Pass, TestRunState.new []) :=
  (c3_xfail_rewrites_only_fail matcherNone (TestRunState.new [])
    (TestRunState.new []) ⟨⟨"t", "t"⟩, [⟨1, .XFail⟩]⟩ .Pass (by decide)
    (by decide)).2.1 rfl

/-!
## HashMap-model lemmas
-/

theorem hmLookup_hmInsert_self (m : VarMap) (k v : String) :
    hmLookup (hmInsert m k v) k = some v := by
  simp [hmLookup, hmInsert]

theorem find?_filter_ne (m : VarMap) (k k' : String) (h : k' ≠ k) :
    (m.filter (fun p => p.1 != k)).find? (fun p => p.1 == k') =
      m.find? (fun p => p.1 == k') := by
  induction m with
  | nil => rfl
  | cons a rest ih =>
    by_cases hak : a.1 = k
    · have h1 : (a.1 != k) = false := by simp [hak]
      have h2 : (a.1 == k') = false := by simp [hak]; exact fun hh => h hh.symm
      simp [List.filter_cons, h1, List.find?_cons, h2, ih]
    · have h1 : (a.1 != k) = true := by simp [hak]
      by_cases hk' : a.1 = k'
      · simp [List.filter_cons, h1, List.find?_cons, hk', h]
      · have h2 : (a.1 == k') = false := by simp [hk']
        simp [List.filter_cons, h1, List.find?_cons, h2, ih]

theorem hmLookup_hmInsert_ne (m : VarMap) (k v k' : String) (h : k' ≠ k) :
    hmLookup (hmInsert m k v) k' = hmLookup m k' := by
  have h2 : (k == k') = false := by
    simp
    exact fun hh => h hh.symm
  simp only [hmLookup, hmInsert, List.find?_cons, h2]
  rw [find?_filter_ne m k k' h]

theorem hmLookup_extend_not_mem {adds : VarMap} (m : VarMap) {k : String}
    (h : k ∉ adds.map Prod.fst) :
    hmLookup (hmExtend m adds) k = hmLookup m k := by
  induction adds generalizing m with
  | nil => rfl
  | cons a rest ih =>
    simp only [List.map_cons, List.mem_cons, not_or] at h
    obtain ⟨hka, hkr⟩ := h
    show hmLookup (hmExtend (hmInsert m a.1 a.2) rest) k = _
    rw [ih (hmInsert m a.1 a.2) hkr, hmLookup_hmInsert_ne m a.1 a.2 k hka]

theorem hmLookup_extend_nodup {adds : VarMap} (m : VarMap) {k v : String}
    (hnd : (adds.map Prod.fst).Nodup) (h : hmLookup adds k = some v) :
    hmLookup (hmExtend m adds) k = some v := by
  induction adds generalizing m with
  | nil => simp [hmLookup] at h
  | cons a rest ih =>
    simp only [List.map_cons, List.nodup_cons] at hnd
    obtain ⟨hna, hnr⟩ := hnd
    by_cases hak : a.1 = k
    · have hbeq : (a.1 == k) = true := by simp [hak]
      simp only [hmLookup, List.find?_cons, hbeq, Option.map_some'] at h
      obtain rfl := Option.some.inj h
      subst hak
      show hmLookup (hmExtend (hmInsert m a.1 a.2) rest) a.1 = some a.2
      rw [hmLookup_extend_not_mem (hmInsert m a.1 a.2) hna]
      exact hmLookup_hmInsert_self m a.1 a.2
    · have hbeq : (a.1 == k) = false := by simp [hak]
      simp only [hmLookup, List.find?_cons, hbeq] at h
      show hmLookup (hmExtend (hmInsert m a.1 a.2) rest) k = some v
      exact ih (hmInsert m a.1 a.2) hnr h

/-!
## Claim C9
-/

/-- C9: when `check_next` finds a match whose start lies at or beyond
the first newline of the (whitespace-eaten) unprocessed slice, the call
returns `Fail` with the next-line hint, but the named captures
harvested from the match have already been merged into the live
variable map of the returned state — the failing `CHECK-NEXT` is not
atomic with respect to the variable state, and the leaked captures
resolve by later lookups in the same RUN. -/
theorem c9_check_next_fail_leaks_captures
    {M : Matcher} {p : TextPattern} {s s1 : TestRunState} {u : List Char}
    {mr : MatchResult} {nl : Nat}
    (h1 : s.eat_whitespace = some s1) (hu : s1.unprocessed = some u)
    (hm : M p s1.vars u = some mr)
    (hnl : firstNewlineByteIdx u = some nl) (hge : nl ≤ mr.start)
    (hnd : (mr.captures.map Prod.fst).Nodup) :
    s.check_next M p = some
      (.Fail (.CheckFailed
        ⟨s1.complete_output_stream, s1.current_stream_byte_position, p⟩)
        (some (checkNextHint p)),
        { s1 with vars := hmExtend s1.vars mr.captures }) ∧
    (∀ k v, hmLookup mr.captures k = some v →
      hmLookup ({ s1 with vars := hmExtend s1.vars mr.captures } :
        TestRunState).vars k = some v) := by
  refine ⟨check_extended_hint_fail h1 hu hm hnl hge, ?_⟩
  intro k v hk
  exact hmLookup_extend_nodup s1.vars hnd hk

/-- Witness for C9 at a concrete input: output `ab\ncd`, cursor 0, a
match at bytes 3-4 capturing `N := c`; `check_next` fails with the hint
and the state still learns `N`. -/
theorem c9_check_next_fail_leaks_captures_witness :
    (TestRunState.mk (("ab\ncd").toList) 0 [] []).check_next
      (matcherConst (("ab\ncd").toList) ⟨3, 4, [(("N" : String), ("c" : String))]⟩)
      patQ =
      some (.Fail (.CheckFailed ⟨("ab\ncd").toList, 0, patQ⟩)
        (some (checkNextHint patQ)),
        TestRunState.mk (("ab\ncd").toList) 0 []
          (hmExtend [] [(("N" : String), ("c" : String))])) ∧
    hmLookup (hmExtend [] [(("N" : String), ("c" : String))]) ("N" : String) =
      some ("c" : String) := by
  have h := c9_check_next_fail_leaks_captures
    (show (TestRunState.mk (("ab\ncd").toList) 0 [] []).eat_whitespace =
      some (TestRunState.mk (("ab\ncd").toList) 0 [] []) from by decide)
    (show (TestRunState.mk (("ab\ncd").toList) 0 [] []).unprocessed =
      some (("ab\ncd").toList) from by decide)
    (show matcherConst (("ab\ncd").toList)
        ⟨3, 4, [(("N" : String), ("c" : String))]⟩ patQ []
        (("ab\ncd").toList) =
      some ⟨3, 4, [(("N" : String), ("c" : String))]⟩ from by decide)
    (show firstNewlineByteIdx (("ab\ncd").toList) = some 2 from by decide)
    (by decide) (by decide)
  exact ⟨h.1, h.2 ("N" : String) ("c" : String) (by decide)⟩

/-!
## Claim C2
-/

/-- C2: line locality of `check_next`.  With `u` the unprocessed slice
at matching time (both `check` and `check_next` first eat the same
leading whitespace): `check_next(p)` succeeds iff `check(p)` would
succeed and the first match starts strictly before the first `\n` of
`u` (vacuous when `u` has no newline); a match at or beyond that
newline yields `Fail` with the next-line hint; and no match at all
yields the same `CheckFailed` as `check`, with no hint. -/
theorem c2_check_next_line_locality
    {M : Matcher} (hM : MatcherWf M) {p : TextPattern} {s s1 : TestRunState}
    {u : List Char}
    (h1 : s.eat_whitespace = some s1) (hu : s1.unprocessed = some u) :
    ((∃ t, s.check_next M p = some (.Pass, t)) ↔
      ((∃ t, s.check M p = some (.Pass, t)) ∧
        (∃ mr, M p s1.vars u = some mr ∧
          ∀ nl, firstNewlineByteIdx u = some nl → mr.start < nl))) ∧
    (∀ mr nl, M p s1.vars u = some mr → firstNewlineByteIdx u = some nl →
      nl ≤ mr.start →
      s.check_next M p = some
        (.Fail (.CheckFailed ⟨s1.complete_output_stream,
          s1.current_stream_byte_position, p⟩) (some (checkNextHint p)),
          { s1 with vars := hmExtend s1.vars mr.captures })) ∧
    (M p s1.vars u = none →
      s.check_next M p = s.check M p ∧
      s.check_next M p = some
        (.Fail (.CheckFailed ⟨s1.complete_output_stream,
          s1.current_stream_byte_position, p⟩) none, s1)) := by
  refine ⟨?_, ?_, ?_⟩
  · constructor
    · rintro ⟨t, hpass⟩
      have hpass' : s.check_extended M p true = some (.Pass, t) := hpass
      cases hm : M p s1.vars u with
      | none =>
        rw [check_extended_no_match h1 hu hm] at hpass'
        have := congrArg Prod.fst (Option.some.inj hpass')
        cases this
      | some mr =>
        have hcond : ∀ nl, firstNewlineByteIdx u = some nl → mr.start < nl := by
          intro nl hnl
          by_contra hle
          rw [check_extended_hint_fail h1 hu hm hnl (by omega)] at hpass'
          have := congrArg Prod.fst (Option.some.inj hpass')
          cases this
        obtain ⟨_, hbs, hbe⟩ := hM p s1.vars u mr hm
        obtain ⟨s4, u4, hadv, _, _, _, _⟩ := @advance_past_match_spec
          { s1 with vars := hmExtend s1.vars mr.captures } u mr.stop hu hbe
        have hchk : s.check_extended M p false = some (.Pass, s4) := by
          rw [check_extended_advance_eq h1 hu hm
            (fun hff => absurd hff Bool.false_ne_true), hadv]
          rfl
        exact ⟨⟨s4, hchk⟩, ⟨mr, rfl, hcond⟩⟩
    · rintro ⟨_, mr, hm, hcond⟩
      obtain ⟨_, hbs, hbe⟩ := hM p s1.vars u mr hm
      obtain ⟨s4, u4, hadv, _, _, _, _⟩ := @advance_past_match_spec
        { s1 with vars := hmExtend s1.vars mr.captures } u mr.stop hu hbe
      have hchk : s.check_extended M p true = some (.Pass, s4) := by
        rw [check_extended_advance_eq h1 hu hm (fun _ => hcond), hadv]
        rfl
      exact ⟨s4, hchk⟩
  · intro mr nl hm hnl hge
    exact check_extended_hint_fail h1 hu hm hnl hge
  · intro hm
    constructor
    · show s.check_extended M p true = s.check_extended M p false
      rw [check_extended_no_match h1 hu hm, check_extended_no_match h1 hu hm]
    · exact check_extended_no_match h1 hu hm

/-- Witness for C2 at a concrete input: output `ab\ncd`, a match at
bytes 3-4 (at/after the newline at byte 2); `check_next` fails with the
next-line hint. -/
theorem c2_check_next_line_locality_witness :
    (TestRunState.mk (("ab\ncd").toList) 0 [] []).check_next
      (matcherConst (("ab\ncd").toList) ⟨3, 4, []⟩) patQ =
      some (.Fail (.CheckFailed ⟨("ab\ncd").toList, 0, patQ⟩)
        (some (checkNextHint patQ)),
        TestRunState.mk (("ab\ncd").toList) 0 [] (hmExtend [] [])) := by
  have hM : MatcherWf (matcherConst (("ab\ncd").toList) ⟨3, 4, []⟩) := by
    intro p vars h mr hm
    simp only [matcherConst] at hm
    by_cases hh : h = ("ab\ncd").toList
    · rw [if_pos hh] at hm
      obtain rfl := Option.some.inj hm
      subst hh
      refine ⟨by decide, ⟨['a', 'b', '\n'], ['c', 'd'], by decide, by decide⟩,
        ⟨['a', 'b', '\n', 'c'], ['d'], by decide, by decide⟩⟩
    · rw [if_neg hh] at hm
      cases hm
  exact (c2_check_next_line_locality hM
    (show (TestRunState.mk (("ab\ncd").toList) 0 [] []).eat_whitespace =
      some (TestRunState.mk (("ab\ncd").toList) 0 [] []) from by decide)
    (show (TestRunState.mk (("ab\ncd").toList) 0 [] []).unprocessed =
      some (("ab\ncd").toList) from by decide)).2.1
    ⟨3, 4, []⟩ 2 (by decide) (by decide) (by decide)

/-!
## Claim C8
-/

theorem check_extended_boundary_step {M : Matcher} (hM : MatcherWf M)
    {p : TextPattern} {req : Bool} {s t : TestRunState} {r : TestResultKind}
    (hb : CursorOnBoundary s) (h : s.check_extended M p req = some (r, t)) :
    CursorOnBoundary t := by
  obtain ⟨u, hu⟩ := dropBytes_of_boundary hb
  have h1 := eat_whitespace_eq hu
  set s1 : TestRunState := { s with current_stream_byte_position :=
      s.current_stream_byte_position + byteLen (u.takeWhile rustIsWhitespace) } with hs1
  obtain ⟨ho, hv, he, hp, hu1⟩ := eat_whitespace_fields hu h1
  cases hm : M p s1.vars (u.dropWhile rustIsWhitespace) with
  | none =>
    rw [check_extended_no_match h1 hu1 hm] at h
    obtain rfl : _ = t := congrArg Prod.snd (Option.some.inj h)
    exact boundary_of_dropBytes hu1
  | some mr =>
    by_cases hcond : req = true ∧ ∃ nl,
        firstNewlineByteIdx (u.dropWhile rustIsWhitespace) = some nl ∧ nl ≤ mr.start
    · obtain ⟨hreq, nl, hnl, hge⟩ := hcond
      subst hreq
      rw [check_extended_hint_fail h1 hu1 hm hnl hge] at h
      obtain rfl : _ = t := congrArg Prod.snd (Option.some.inj h)
      exact boundary_of_dropBytes hu1
    · have hok : req = true → ∀ nl,
          firstNewlineByteIdx (u.dropWhile rustIsWhitespace) = some nl →
          mr.start < nl := by
        intro hreq nl hnl
        by_contra hlt
        exact hcond ⟨hreq, nl, hnl, by omega⟩
      rw [check_extended_advance_eq h1 hu1 hm hok] at h
      obtain ⟨_, hbs, hbe⟩ := hM _ _ _ mr hm
      obtain ⟨s4, u4, hadv, hu4, _, _, _⟩ := @advance_past_match_spec
        { s1 with vars := hmExtend s1.vars mr.captures }
        (u.dropWhile rustIsWhitespace) mr.stop hu1 hbe
      rw [hadv] at h
      obtain rfl : s4 = t := congrArg Prod.snd (Option.some.inj h)
      exact boundary_of_dropBytes hu4

/-- C8: for any sequence of `check` / `check_next` operations run
against a well-behaved regex engine, starting from a state whose cursor
sits on a UTF-8 code-point boundary, the final cursor also sits on a
code-point boundary of the output stream, with `cursor ≤ byteLen
output` (and `0 ≤ cursor` holds by the type) — including outputs with
multi-byte characters. -/
theorem c8_cursor_utf8_boundary
    {M : Matcher} (hM : MatcherWf M) {ops : List (TextPattern × Bool)}
    {s s' : TestRunState} (hb : CursorOnBoundary s)
    (h : runCheckSequence M ops s = some s') :
    CursorOnBoundary s' ∧
    s'.current_stream_byte_position ≤ byteLen s'.complete_output_stream := by
  suffices hmain : CursorOnBoundary s' by
    exact ⟨hmain, byteBoundary_le hmain⟩
  induction ops generalizing s with
  | nil =>
    obtain rfl : s = s' := Option.some.inj h
    exact hb
  | cons op rest ih =>
    rw [runCheckSequence, List.foldlM_cons] at h
    cases hc : s.check_extended M op.1 op.2 with
    | none => rw [hc] at h; cases h
    | some rt =>
      rw [hc] at h
      have hstep := check_extended_boundary_step hM hb
        (show s.check_extended M op.1 op.2 = some (rt.1, rt.2) from hc)
      exact ih hstep h

/-- Witness for C8 at a concrete input with a multi-byte character:
output `ωx` (3 bytes), one successful `check` whose match covers the
two-byte `ω`; the final cursor 3 sits on a boundary. -/
theorem c8_cursor_utf8_boundary_witness :
    CursorOnBoundary (TestRunState.mk (("ωx").toList) 3 [] []) ∧
    (TestRunState.mk (("ωx").toList) 3 [] []).current_stream_byte_position ≤
      byteLen (TestRunState.mk (("ωx").toList) 3 [] []).complete_output_stream := by
  have hM : MatcherWf (matcherConst (("ωx").toList) ⟨0, 2, []⟩) := by
    intro p vars h mr hm
    simp only [matcherConst] at hm
    by_cases hh : h = ("ωx").toList
    · rw [if_pos hh] at hm
      obtain rfl := Option.some.inj hm
      subst hh
      exact ⟨by decide, ⟨[], _, rfl, by decide⟩, ⟨['ω'], ['x'], by decide, by decide⟩⟩
    · rw [if_neg hh] at hm
      cases hm
  have hb0 : CursorOnBoundary (TestRunState.mk (("ωx").toList) 0 [] []) :=
    byteBoundary_zero _
  have hrun : runCheckSequence (matcherConst (("ωx").toList) ⟨0, 2, []⟩)
      [(patQ, false)] (TestRunState.mk (("ωx").toList) 0 [] []) =
      some (TestRunState.mk (("ωx").toList) 3 [] []) := by decide
  exact c8_cursor_utf8_boundary hM hb0 hrun

/-!
## Claim C6
-/

theorem unprocessed_stderr (s : TestRunState) (e : List Char) :
    ({ s with complete_stderr := e } : TestRunState).unprocessed = s.unprocessed := rfl

theorem eat_whitespace_none {s : TestRunState} (h : s.unprocessed = none) :
    s.eat_whitespace = none := by
  simp [TestRunState.eat_whitespace, h]

theorem check_extended_eat_none {M : Matcher} {p : TextPattern} {req : Bool}
    {s : TestRunState} (h : s.eat_whitespace = none) :
    s.check_extended M p req = none := by
  simp [TestRunState.check_extended, h]

theorem eat_until_end_of_line_stderr (s : TestRunState) (e : List Char) :
    ({ s with complete_stderr := e } : TestRunState).eat_until_end_of_line =
      s.eat_until_end_of_line.map (fun x => { x with complete_stderr := e }) := by
  rw [TestRunState.eat_until_end_of_line, TestRunState.eat_until_end_of_line,
    unprocessed_stderr]
  cases hu : s.unprocessed with
  | none => rfl
  | some u =>
    cases hnl : firstNewlineByteIdx u <;>
      simp [hnl, TestRunState.set_position_eof]

theorem advance_past_match_stderr (s : TestRunState) (k : Nat) (e : List Char) :
    ({ s with complete_stderr := e } : TestRunState).advance_past_match k =
      (s.advance_past_match k).map (fun x => { x with complete_stderr := e }) := by
  rw [TestRunState.advance_past_match, TestRunState.advance_past_match]
  exact eat_until_end_of_line_stderr
    { s with current_stream_byte_position := s.current_stream_byte_position + k } e

theorem check_extended_stderr_irrelevant (M : Matcher) (p : TextPattern)
    (req : Bool) (s : TestRunState) (e : List Char) :
    ({ s with complete_stderr := e } : TestRunState).check_extended M p req =
      (s.check_extended M p req).map
        (fun rs => (rs.1, { rs.2 with complete_stderr := e })) := by
  cases hu : s.unprocessed with
  | none =>
    have hu2 : ({ s with complete_stderr := e } : TestRunState).unprocessed = none := hu
    rw [check_extended_eat_none (eat_whitespace_none hu),
      check_extended_eat_none (eat_whitespace_none hu2)]
    rfl
  | some u =>
    have hu2 : ({ s with complete_stderr := e } : TestRunState).unprocessed = some u := hu
    have h1 := eat_whitespace_eq hu
    have h2 := eat_whitespace_eq hu2
    set s1 : TestRunState := { s with current_stream_byte_position :=
      s.current_stream_byte_position + byteLen (u.takeWhile rustIsWhitespace) } with hs1
    have h2' : ({ s with complete_stderr := e } : TestRunState).eat_whitespace =
        some { s1 with complete_stderr := e } := h2
    obtain ⟨ho, hv, he, hp, hu1⟩ := eat_whitespace_fields hu h1
    have hu1' : ({ s1 with complete_stderr := e } : TestRunState).unprocessed =
        some (u.dropWhile rustIsWhitespace) := hu1
    have hveq : ({ s1 with complete_stderr := e } : TestRunState).vars = s1.vars := rfl
    cases hm : M p s1.vars (u.dropWhile rustIsWhitespace) with
    | none =>
      rw [check_extended_no_match h1 hu1 hm,
        check_extended_no_match h2' hu1' (by rw [hveq]; exact hm)]
      rfl
    | some mr =>
      by_cases hcond : req = true ∧ ∃ nl,
          firstNewlineByteIdx (u.dropWhile rustIsWhitespace) = some nl ∧ nl ≤ mr.start
      · obtain ⟨hreq, nl, hnl, hge⟩ := hcond
        subst hreq
        rw [check_extended_hint_fail h1 hu1 hm hnl hge,
          check_extended_hint_fail h2' hu1' (by rw [hveq]; exact hm) hnl hge]
        rfl
      · have hok : req = true → ∀ nl,
            firstNewlineByteIdx (u.dropWhile rustIsWhitespace) = some nl →
            mr.start < nl := by
          intro hreq nl hnl
          by_contra hlt
          exact hcond ⟨hreq, nl, hnl, by omega⟩
        rw [check_extended_advance_eq h1 hu1 hm hok,
          check_extended_advance_eq h2' hu1' (by rw [hveq]; exact hm) hok]
        have hcomm : ({ { s1 with complete_stderr := e } with
            vars := hmExtend ({ s1 with complete_stderr := e } :
              TestRunState).vars mr.captures } : TestRunState) =
            { { s1 with vars := hmExtend s1.vars mr.captures } with
              complete_stderr := e } := rfl
        rw [hcomm, advance_past_match_stderr]
        cases ({ s1 with vars := hmExtend s1.vars mr.captures } :
            TestRunState).advance_past_match mr.stop <;> rfl

/-- Counterexample to C6 as stated: the evaluator state seeded for a
RUN receives the captured stdout verbatim — for stdout `"a \nb"` the
stored output stream is `"a \nb"`, not the right-trimmed rejoined text
`"a\nb"` the claim requires. -/
theorem c6_counterexample :
    (((TestRunState.new []).append_program_output (("a \nb").toList)).append_program_stderr
      []).complete_output_stream = ("a \nb").toList ∧
    specRightTrimStdout (("a \nb").toList) = ("a\nb").toList ∧
    ("a \nb").toList ≠ ("a\nb").toList := by
  refine ⟨by decide, by decide, by decide⟩

/-- C6, corrected form.  (1) The evaluator state seeded by
`execute_tests` holds the captured stdout verbatim (no per-line
right-trimming or any other transformation happens before checks run);
(2) stderr is stored but never matched: the outcome of
`check`/`check_next` and the rest of the state evolution are
independent of the stderr field, which is passed through unchanged. -/
theorem c6_stdout_untrimmed_stderr_unmatched :
    (∀ (vars : VarMap) (out : ProgramOutput),
      (((TestRunState.new vars).append_program_output
        out.stdout.toList).append_program_stderr out.stderr.toList).complete_output_stream
        = out.stdout.toList) ∧
    (∀ (M : Matcher) (p : TextPattern) (req : Bool) (s : TestRunState)
      (e : List Char),
      ({ s with complete_stderr := e } : TestRunState).check_extended M p req =
        (s.check_extended M p req).map
          (fun rs => (rs.1, { rs.2 with complete_stderr := e }))) := by
  constructor
  · intro vars out
    simp [TestRunState.new, TestRunState.append_program_output,
      TestRunState.append_program_stderr]
  · intro M p req s e
    exact check_extended_stderr_irrelevant M p req s e

/-!
## Claim C7: auxiliary list lemmas
-/

theorem takeWhile_mem_true {p : Char → Bool} {l : List Char} {c : Char}
    (h : c ∈ l.takeWhile p) : p c = true := by
  induction l with
  | nil => simp at h
  | cons a rest ih =>
    by_cases ha : p a
    · rw [List.takeWhile_cons, if_pos ha] at h
      rcases List.mem_cons.mp h with rfl | h2
      · exact ha
      · exact ih h2
    · rw [List.takeWhile_cons, if_neg ha] at h
      simp at h

theorem takeWhile_append_exact {p : Char → Bool} {a b : List Char}
    (ha : ∀ c ∈ a, p c = true)
    (hb : ∀ c, b.head? = some c → p c = false) :
    (a ++ b).takeWhile p = a := by
  induction a with
  | nil =>
    cases b with
    | nil => rfl
    | cons c rest =>
      simp only [List.nil_append, List.takeWhile_cons, hb c rfl]
      rfl
  | cons x a ih =>
    have hx := ha x (by simp)
    simp only [List.cons_append, List.takeWhile_cons, hx, if_true]
    rw [ih (fun c hc => ha c (by simp [hc]))]

theorem dropWhile_head?_false {p : Char → Bool} {l : List Char} {c : Char}
    (h : (l.dropWhile p).head? = some c) : p c = false := by
  induction l with
  | nil => simp [List.dropWhile] at h
  | cons a rest ih =>
    by_cases ha : p a
    · rw [List.dropWhile_cons_of_pos ha] at h
      exact ih h
    · rw [List.dropWhile_cons_of_neg ha] at h
      obtain rfl := Option.some.inj h
      exact Bool.not_eq_true _ ▸ (by simpa using ha)

theorem drop_takeWhile_length (p : Char → Bool) (l : List Char) :
    l.drop (l.takeWhile p).length = l.dropWhile p := by
  have h := @List.takeWhile_append_dropWhile _ p l
  calc l.drop (l.takeWhile p).length
      = (l.takeWhile p ++ l.dropWhile p).drop (l.takeWhile p).length := by rw [h]
    _ = l.dropWhile p := List.drop_left _ _

theorem byteLen_eq_length {l : List Char} (h : singleByte l = true) :
    byteLen l = l.length := by
  induction l with
  | nil => rfl
  | cons c rest ih =>
    simp only [singleByte, List.all_cons, Bool.and_eq_true, beq_iff_eq] at h
    simp only [byteLen, List.length_cons, h.1,
      ih (by simp [singleByte, h.2])]
    omega

theorem scan_exact {r : List Char} {lvl : Int} (t : List Char)
    (h : balFrom lvl r = true) (hl : 0 ≤ lvl) :
    scanRegex lvl (r ++ ']' :: ']' :: t) = (r, t) := by
  induction r generalizing lvl with
  | nil =>
    simp only [balFrom, beq_iff_eq] at h
    subst h
    simp [scanRegex]
  | cons c rs ih =>
    by_cases hbr : c = '['
    · subst hbr
      rw [show balFrom lvl ('[' :: rs) = balFrom (lvl + 1) rs from by
        simp [balFrom]] at h
      have hred : scanRegex lvl ('[' :: (rs ++ ']' :: ']' :: t)) =
          ('[' :: (scanRegex (lvl + 1) (rs ++ ']' :: ']' :: t)).1,
            (scanRegex (lvl + 1) (rs ++ ']' :: ']' :: t)).2) := by
        simp [scanRegex]
      rw [List.cons_append, hred, ih h (by omega)]
    · by_cases hbk : c = ']'
      · subst hbk
        rw [show balFrom lvl (']' :: rs) =
            (decide (0 < lvl) && balFrom (lvl - 1) rs) from by
          simp [balFrom]] at h
        simp only [Bool.and_eq_true, decide_eq_true_eq] at h
        obtain ⟨hpos, hrec⟩ := h
        have hcond : ¬(']' = ']' ∧ (rs ++ ']' :: ']' :: t).head? = some ']' ∧
            lvl = 0) := by
          rintro ⟨_, _, hz⟩
          omega
        have hred : scanRegex lvl (']' :: (rs ++ ']' :: ']' :: t)) =
            (']' :: (scanRegex (lvl - 1) (rs ++ ']' :: ']' :: t)).1,
              (scanRegex (lvl - 1) (rs ++ ']' :: ']' :: t)).2) := by
          simp only [scanRegex]
          rw [if_neg (show ¬(True ∧ (rs ++ ']' :: ']' :: t).head? = some ']' ∧
            lvl = 0) from by rintro ⟨_, _, hz⟩; omega)]
          simp
        rw [List.cons_append, hred, ih hrec (by omega)]
      · rw [show balFrom lvl (c :: rs) = balFrom lvl rs from by
          simp [balFrom, hbr, hbk]] at h
        have hcond : ¬(c = ']' ∧ (rs ++ ']' :: ']' :: t).head? = some ']' ∧
            lvl = 0) := by
          rintro ⟨hc, _, _⟩
          exact hbk hc
        have hred : scanRegex lvl (c :: (rs ++ ']' :: ']' :: t)) =
            (c :: (scanRegex lvl (rs ++ ']' :: ']' :: t)).1,
              (scanRegex lvl (rs ++ ']' :: ']' :: t)).2) := by
          simp [scanRegex, hcond, hbr, hbk]
        rw [List.cons_append, hred, ih h hl]

theorem utf8Len_of_identStart {c : Char} (h : isIdentStart c = true) :
    utf8Len c = 1 := by
  have hlt : c.toNat < 0x80 := by
    simp only [isIdentStart, Char.isAlpha, Char.isUpper, Char.isLower,
      Bool.or_eq_true, Bool.and_eq_true, decide_eq_true_eq] at h
    rcases h with (⟨h1, h2⟩ | ⟨h1, h2⟩) | rfl
    · have h2' : c.toNat ≤ 90 := h2
      omega
    · have h2' : c.toNat ≤ 122 := h2
      omega
    · decide
  simp [utf8Len, hlt]

theorem utf8Len_of_identCont {c : Char} (h : isIdentCont c = true) :
    utf8Len c = 1 := by
  have hlt : c.toNat < 0x80 := by
    simp only [isIdentCont, Char.isAlphanum, Char.isAlpha, Char.isDigit,
      Char.isUpper, Char.isLower, Bool.or_eq_true, Bool.and_eq_true,
      decide_eq_true_eq] at h
    rcases h with ((⟨h1, h2⟩ | ⟨h1, h2⟩) | ⟨h1, h2⟩) | rfl
    · have h2' : c.toNat ≤ 90 := h2
      omega
    · have h2' : c.toNat ≤ 122 := h2
      omega
    · have h2' : c.toNat ≤ 57 := h2
      omega
    · decide
  simp [utf8Len, hlt]

theorem singleByte_of_isIdentifier {n : List Char} (h : isIdentifier n = true) :
    singleByte n = true := by
  cases n with
  | nil => rfl
  | cons c cs =>
    simp only [isIdentifier, Bool.and_eq_true, List.all_eq_true] at h
    simp only [singleByte, List.all_cons, List.all_eq_true, Bool.and_eq_true,
      beq_iff_eq]
    exact ⟨utf8Len_of_identStart h.1,
      fun x hx => by simp [utf8Len_of_identCont (h.2 x hx)]⟩

theorem findIdx?_decomp {p : Char → Bool} {l : List Char} {i : Nat}
    (h : l.findIdx? p = some i) :
    ∃ a c b, l = a ++ c :: b ∧ a.length = i ∧ p c = true := by
  have aux : ∀ (l : List Char) (s i : Nat), List.findIdx? p l s = some i →
      ∃ a c b, l = a ++ c :: b ∧ s + a.length = i ∧ p c = true := by
    intro l
    induction l with
    | nil => intro s i h; simp at h
    | cons x xs ih =>
      intro s i h
      rw [List.findIdx?_cons] at h
      by_cases hx : p x = true
      · rw [if_pos hx] at h
        obtain rfl := Option.some.inj h
        exact ⟨[], x, xs, rfl, by simp, hx⟩
      · rw [if_neg hx] at h
        obtain ⟨a, c, b, hdec, hlen, hc⟩ := ih (s + 1) i h
        exact ⟨x :: a, c, b, by simp [hdec],
          by simp only [List.length_cons]; omega, hc⟩
  obtain ⟨a, c, b, hdec, hlen, hc⟩ := aux l 0 i h
  exact ⟨a, c, b, hdec, by omega, hc⟩

theorem classifyFrag_shape {f : List Char} {comp : PatternComponent}
    (h : classifyFrag f = some comp) :
    comp = .Regex f ∨
      ∃ n r, comp = .NamedRegex n r ∧ f = n ++ ':' :: r ∧
        isIdentifier n = true := by
  rw [classifyFrag] at h
  split at h
  · exact Or.inl (Option.some.inj h).symm
  · rename_i ci hidx
    split at h
    · cases h
    · rename_i pre htake
      split at h
      · rename_i hid
        split at h
        · cases h
        · rename_i rest hdrop
          obtain rfl := (Option.some.inj h).symm
          right
          refine ⟨pre, rest, rfl, ?_, hid⟩
          obtain ⟨post, hpost, hblen⟩ := byteTake_some_decomp htake
          obtain ⟨a, c, b, hdec, halen, hc⟩ := findIdx?_decomp hidx
          have hcolon : c = ':' := by simpa using hc
          subst hcolon
          have hplen : pre.length = ci := by
            rw [← byteLen_eq_length (singleByte_of_isIdentifier hid), hblen]
          have hpre_eq : pre = a := by
            have hlen2 : pre.length = a.length := by rw [hplen, halen]
            have hh : pre ++ post = a ++ ':' :: b := by rw [← hpost, ← hdec]
            exact List.append_inj_left hh hlen2
          subst hpre_eq
          have hpost_eq : post = ':' :: b := by
            have hh : pre ++ post = pre ++ ':' :: b := by rw [← hpost, ← hdec]
            exact List.append_cancel_left hh
          have hfull : f = (pre ++ [':']) ++ b := by
            rw [hpost, hpost_eq]
            simp
          have hdrop2 : dropBytes (ci + 1) f = some b := by
            have hblen2 : byteLen (pre ++ [':']) = ci + 1 := by
              rw [byteLen_append, hblen]
              simp [byteLen, utf8Len]
            rw [hfull, ← hblen2]
            exact dropBytes_byteLen_append _ _
          rw [hdrop] at hdrop2
          obtain rfl := Option.some.inj hdrop2
          rw [hfull]
          simp
      · rename_i hid
        exact Or.inl (Option.some.inj h).symm

theorem firstRenderChar_eq_head (l : List PatternComponent) :
    firstRenderChar l = (renderComps l).head? := by
  induction l with
  | nil => rfl
  | cons comp rest ih =>
    cases comp with
    | Text t =>
      cases t with
      | nil =>
        have hr : renderComps (.Text [] :: rest) = renderComps rest := by
          simp [renderComps, renderComponent]
        rw [hr]
        exact ih
      | cons c cs => simp [firstRenderChar, renderComps, renderComponent]
    | Variable n => simp [firstRenderChar, renderComps, renderComponent]
    | Regex r => simp [firstRenderChar, renderComps, renderComponent]
    | NamedRegex n r => simp [firstRenderChar, renderComps, renderComponent]
    | Constant n => simp [firstRenderChar, renderComps, renderComponent]

theorem textPassable_congr {t r1 r2 : List Char} (h : r1.head? = r2.head?) :
    textPassable t r1 = textPassable t r2 := by
  induction t with
  | nil => rfl
  | cons c t ih =>
    have hh : (t ++ r1).head? = (t ++ r2).head? := by
      cases t <;> simp [h]
    simp only [textPassable, hh, ih]

theorem textPassable_snoc {t : List Char} {c : Char} {rest : List Char} :
    textPassable (t ++ [c]) rest = true ↔
      (textPassable t (c :: rest) = true ∧ (!(c = '@' : Bool)) = true ∧
        (!(c = '$' && rest.head? == some '$')) = true ∧
        (!(c = '[' && rest.head? == some '[')) = true) := by
  induction t with
  | nil =>
    simp only [List.nil_append, textPassable, Bool.and_eq_true]
    tauto
  | cons x t ih =>
    have hh : ((t ++ [c]) ++ rest).head? = (t ++ (c :: rest)).head? := by
      cases t <;> simp
    simp only [List.cons_append, textPassable, Bool.and_eq_true,
      List.append_eq, hh]
    tauto

/-- Witness for the corrected C5 at a concrete input. -/
theorem c5_resolution_substitutes_verbatim_witness :
    resolveTextPattern
      (fun k => if k = ("x" : String) then some ("a+b" : String) else none)
      ⟨[.Variable ['x']]⟩ = some (("a+b" : String).toList) ∧
    resolveTextPattern
      (fun k => if k = ("x" : String) then some ("a+b" : String) else none)
      ⟨[.Constant ['x']]⟩ = some (("a+b" : String).toList) :=
  c5_resolution_substitutes_verbatim
    (fun k => if k = ("x" : String) then some ("a+b" : String) else none)
    ['x'] ("a+b" : String) (by decide)

theorem parseComps_nil (ia : Char → Bool) (acc : List Char) :
    parseComps ia [] acc = some [.Text acc] := by
  simp [parseComps]

theorem parseComps_var_step (ia : Char → Bool) (rest acc : List Char) :
    parseComps ia ('$' :: '$' :: rest) acc =
      (if rest.takeWhile ia = [] then none
       else (parseComps ia (rest.drop (byteLen (rest.takeWhile ia))) []).map
         (fun comps => .Text acc :: .Variable (rest.takeWhile ia) :: comps)) := by
  simp only [parseComps]

theorem parseComps_bracket_step (ia : Char → Bool) (rest acc : List Char) :
    parseComps ia ('[' :: '[' :: rest) acc =
      (classifyFrag (scanRegex 0 rest).1).bind
        (fun comp => (parseComps ia (scanRegex 0 rest).2 []).map
          (fun comps => .Text acc :: comp :: comps)) := by
  simp only [parseComps]
  cases classifyFrag (scanRegex 0 rest).1 <;> rfl

theorem parseComps_const_step (ia : Char → Bool) (rest acc : List Char) :
    parseComps ia ('@' :: rest) acc =
      (if rest.takeWhile ia = [] then none
       else (parseComps ia (rest.drop (byteLen (rest.takeWhile ia))) []).map
         (fun comps => .Text acc :: .Constant (rest.takeWhile ia) :: comps)) := by
  simp only [parseComps]

theorem scanRegex_rest_length (lvl : Int) (l : List Char) :
    (scanRegex lvl l).2.length ≤ l.length := by
  induction l generalizing lvl with
  | nil => simp [scanRegex]
  | cons c cs ih =>
    simp only [scanRegex]
    split
    · calc cs.tail.length ≤ cs.length := by cases cs <;> simp
        _ ≤ (c :: cs).length := by simp
    · simpa using Nat.le_trans (ih _) (by simp)


theorem parseComps_head {ia : Char → Bool} :
    ∀ (n : Nat) (input acc : List Char) (comps : List PatternComponent),
      input.length ≤ n →
      parseComps ia input acc = some comps →
      (renderComps comps).head? = (acc ++ input).head? := by
  intro n
  induction n with
  | zero =>
    intro input acc comps hlen h
    obtain rfl : input = [] := List.length_eq_zero.mp (Nat.le_zero.mp hlen)
    rw [parseComps_nil] at h
    obtain rfl := Option.some.inj h
    simp [renderComps, renderComponent]
  | succ n ih =>
    intro input acc comps hlen h
    cases input with
    | nil =>
      rw [parseComps_nil] at h
      obtain rfl := Option.some.inj h
      simp [renderComps, renderComponent]
    | cons c1 tl =>
      by_cases h1 : c1 = '$' ∧ tl.head? = some '$'
      · obtain ⟨rfl, hh⟩ := h1
        cases tl with
        | nil => simp at hh
        | cons c2 tl2 =>
          obtain rfl : c2 = '$' := by simpa using hh
          rw [parseComps_var_step] at h
          by_cases hn : tl2.takeWhile ia = []
          · rw [if_pos hn] at h
            cases h
          · rw [if_neg hn] at h
            obtain ⟨comps2, hc2, hcomps⟩ := Option.map_eq_some'.mp h
            subst hcomps
            cases acc <;> simp [renderComps, renderComponent]
      · by_cases h2 : c1 = '[' ∧ tl.head? = some '['
        · obtain ⟨rfl, hh⟩ := h2
          cases tl with
          | nil => simp at hh
          | cons c2 tl2 =>
            obtain rfl : c2 = '[' := by simpa using hh
            rw [parseComps_bracket_step] at h
            cases hcf : classifyFrag (scanRegex 0 tl2).1 with
            | none =>
              rw [hcf, Option.none_bind] at h
              cases h
            | some comp =>
              rw [hcf, Option.some_bind] at h
              obtain ⟨comps2, hc2, hcomps⟩ := Option.map_eq_some'.mp h
              subst hcomps
              rcases classifyFrag_shape hcf with rfl | ⟨nn, rr, rfl, hfr, hid⟩
              · cases acc <;> simp [renderComps, renderComponent]
              · cases acc <;> simp [renderComps, renderComponent]
        · by_cases h3 : c1 = '@'
          · subst h3
            rw [parseComps_const_step] at h
            by_cases hn : tl.takeWhile ia = []
            · rw [if_pos hn] at h
              cases h
            · rw [if_neg hn] at h
              obtain ⟨comps2, hc2, hcomps⟩ := Option.map_eq_some'.mp h
              subst hcomps
              cases acc <;> simp [renderComps, renderComponent]
          · rw [parseComps_literal_step ia c1 tl acc h1 h2 h3] at h
            have hstep := ih tl (acc ++ [c1]) comps
              (by simp only [List.length_cons] at hlen; omega) h
            rw [hstep]
            cases acc <;> simp


theorem parse_wf {ia : Char → Bool} :
    ∀ (n : Nat) (input acc : List Char) (comps : List PatternComponent),
      input.length ≤ n →
      parseComps ia input acc = some comps →
      textPassable acc input = true →
      patternBalanced ⟨comps⟩ = true →
      patternNamesSingleByte ⟨comps⟩ = true →
      CompsWf ia comps := by
  intro n
  induction n with
  | zero =>
    intro input acc comps hlen h hpass hbal hnames
    obtain rfl : input = [] := List.length_eq_zero.mp (Nat.le_zero.mp hlen)
    rw [parseComps_nil] at h
    obtain rfl := Option.some.inj h
    exact CompsWf.lastText acc hpass
  | succ n ih =>
    intro input acc comps hlen h hpass hbal hnames
    cases input with
    | nil =>
      rw [parseComps_nil] at h
      obtain rfl := Option.some.inj h
      exact CompsWf.lastText acc hpass
    | cons c1 tl =>
      by_cases h1 : c1 = '$' ∧ tl.head? = some '$'
      · obtain ⟨rfl, hh⟩ := h1
        cases tl with
        | nil => simp at hh
        | cons c2 tl2 =>
          obtain rfl : c2 = '$' := by simpa using hh
          rw [parseComps_var_step] at h
          by_cases hn : tl2.takeWhile ia = []
          · rw [if_pos hn] at h
            cases h
          · rw [if_neg hn] at h
            obtain ⟨comps2, hc2, hcomps⟩ := Option.map_eq_some'.mp h
            subst hcomps
            have hsb : singleByte (tl2.takeWhile ia) = true := by
              simp only [patternNamesSingleByte, List.all_cons,
                Bool.and_eq_true] at hnames
              tauto
            have hnames2 : patternNamesSingleByte ⟨comps2⟩ = true := by
              simp only [patternNamesSingleByte, List.all_cons,
                Bool.and_eq_true] at hnames ⊢
              tauto
            have hbal2 : patternBalanced ⟨comps2⟩ = true := by
              simp only [patternBalanced, List.all_cons,
                Bool.and_eq_true] at hbal ⊢
              tauto
            have hall : (tl2.takeWhile ia).all ia = true :=
              List.all_eq_true.mpr (fun c hc => takeWhile_mem_true hc)
            have hblen : byteLen (tl2.takeWhile ia) = (tl2.takeWhile ia).length :=
              byteLen_eq_length hsb
            have hlen2 : (tl2.drop (byteLen (tl2.takeWhile ia))).length ≤ n := by
              rw [List.length_drop]
              simp only [List.length_cons] at hlen
              omega
            have hrest := ih _ [] comps2 hlen2 hc2 rfl hbal2 hnames2
            have hnext : ∀ c, firstRenderChar comps2 = some c → ia c = false := by
              intro c hfrc
              rw [firstRenderChar_eq_head] at hfrc
              have hhead := parseComps_head
                (tl2.drop (byteLen (tl2.takeWhile ia))).length _ [] comps2
                (le_refl _) hc2
              rw [hhead, List.nil_append, hblen, drop_takeWhile_length] at hfrc
              exact dropWhile_head?_false hfrc
            have ht : textPassable acc
                ('$' :: '$' :: (tl2.takeWhile ia ++ renderComps comps2)) = true := by
              rw [textPassable_congr
                (show ('$' :: '$' :: (tl2.takeWhile ia ++
                  renderComps comps2)).head? = ('$' :: '$' :: tl2).head? from rfl)]
              exact hpass
            exact CompsWf.varCons acc _ comps2 ht hn hall hsb hnext hrest
      · by_cases h2 : c1 = '[' ∧ tl.head? = some '['
        · obtain ⟨rfl, hh⟩ := h2
          cases tl with
          | nil => simp at hh
          | cons c2 tl2 =>
            obtain rfl : c2 = '[' := by simpa using hh
            rw [parseComps_bracket_step] at h
            cases hcf : classifyFrag (scanRegex 0 tl2).1 with
            | none =>
              rw [hcf, Option.none_bind] at h
              cases h
            | some comp =>
              rw [hcf, Option.some_bind] at h
              obtain ⟨comps2, hc2, hcomps⟩ := Option.map_eq_some'.mp h
              subst hcomps
              have hlen2 : (scanRegex 0 tl2).2.length ≤ n := by
                have hsc := scanRegex_rest_length 0 tl2
                simp only [List.length_cons] at hlen
                omega
              rcases classifyFrag_shape hcf with hcomp | ⟨nn, rr, hcomp, hfr, hid⟩
              · subst hcomp
                apply CompsWf.regexCons
                · rw [textPassable_congr
                    (show ('[' :: '[' :: ((scanRegex 0 tl2).1 ++
                      ']' :: ']' :: renderComps comps2)).head? =
                      ('[' :: '[' :: tl2).head? from rfl)]
                  exact hpass
                · simp only [patternBalanced, List.all_cons,
                    Bool.and_eq_true] at hbal
                  tauto
                · exact hcf
                · apply ih _ [] comps2 hlen2 hc2 rfl
                  · simp only [patternBalanced, List.all_cons,
                      Bool.and_eq_true] at hbal ⊢
                    tauto
                  · simp only [patternNamesSingleByte, List.all_cons,
                      Bool.and_eq_true] at hnames ⊢
                    tauto
              · subst hcomp
                apply CompsWf.namedCons
                · rw [textPassable_congr
                    (show ('[' :: '[' :: ((nn ++ ':' :: rr) ++
                      ']' :: ']' :: renderComps comps2)).head? =
                      ('[' :: '[' :: tl2).head? from rfl)]
                  exact hpass
                · simp only [patternBalanced, List.all_cons,
                    Bool.and_eq_true] at hbal
                  tauto
                · rw [← hfr]
                  exact hcf
                · apply ih _ [] comps2 hlen2 hc2 rfl
                  · simp only [patternBalanced, List.all_cons,
                      Bool.and_eq_true] at hbal ⊢
                    tauto
                  · simp only [patternNamesSingleByte, List.all_cons,
                      Bool.and_eq_true] at hnames ⊢
                    tauto
        · by_cases h3 : c1 = '@'
          · subst h3
            rw [parseComps_const_step] at h
            by_cases hn : tl.takeWhile ia = []
            · rw [if_pos hn] at h
              cases h
            · rw [if_neg hn] at h
              obtain ⟨comps2, hc2, hcomps⟩ := Option.map_eq_some'.mp h
              subst hcomps
              have hsb : singleByte (tl.takeWhile ia) = true := by
                simp only [patternNamesSingleByte, List.all_cons,
                  Bool.and_eq_true] at hnames
                tauto
              have hnames2 : patternNamesSingleByte ⟨comps2⟩ = true := by
                simp only [patternNamesSingleByte, List.all_cons,
                  Bool.and_eq_true] at hnames ⊢
                tauto
              have hbal2 : patternBalanced ⟨comps2⟩ = true := by
                simp only [patternBalanced, List.all_cons,
                  Bool.and_eq_true] at hbal ⊢
                tauto
              have hall : (tl.takeWhile ia).all ia = true :=
                List.all_eq_true.mpr (fun c hc => takeWhile_mem_true hc)
              have hblen : byteLen (tl.takeWhile ia) = (tl.takeWhile ia).length :=
                byteLen_eq_length hsb
              have hlen2 : (tl.drop (byteLen (tl.takeWhile ia))).length ≤ n := by
                rw [List.length_drop]
                simp only [List.length_cons] at hlen
                omega
              have hrest := ih _ [] comps2 hlen2 hc2 rfl hbal2 hnames2
              have hnext : ∀ c, firstRenderChar comps2 = some c → ia c = false := by
                intro c hfrc
                rw [firstRenderChar_eq_head] at hfrc
                have hhead := parseComps_head
                  (tl.drop (byteLen (tl.takeWhile ia))).length _ [] comps2
                  (le_refl _) hc2
                rw [hhead, List.nil_append, hblen, drop_takeWhile_length] at hfrc
                exact dropWhile_head?_false hfrc
              have ht : textPassable acc
                  ('@' :: (tl.takeWhile ia ++ renderComps comps2)) = true := by
                rw [textPassable_congr
                  (show ('@' :: (tl.takeWhile ia ++
                    renderComps comps2)).head? = ('@' :: tl).head? from rfl)]
                exact hpass
              exact CompsWf.constCons acc _ comps2 ht hn hall hsb hnext hrest
          · rw [parseComps_literal_step ia c1 tl acc h1 h2 h3] at h
            have g1 : (!(c1 = '@' : Bool)) = true := by simp [h3]
            have g2 : (!(c1 = '$' && tl.head? == some '$')) = true := by
              by_contra hcon
              simp at hcon
              exact h1 hcon
            have g3 : (!(c1 = '[' && tl.head? == some '[')) = true := by
              by_contra hcon
              simp at hcon
              exact h2 hcon
            have hpass2 : textPassable (acc ++ [c1]) tl = true :=
              textPassable_snoc.mpr ⟨hpass, g1, g2, g3⟩
            exact ih tl (acc ++ [c1]) comps
              (by simp only [List.length_cons] at hlen; omega) h hpass2 hbal hnames


theorem render_reparse {ia : Char → Bool} {comps : List PatternComponent}
    (h : CompsWf ia comps) :
    parseComps ia (renderComps comps) [] = some comps := by
  induction h with
  | lastText t ht =>
    have hstep := parseComps_literal_append ia t [] [] ht
    rw [List.append_nil, List.nil_append, parseComps_nil] at hstep
    simpa [renderComps, renderComponent] using hstep
  | varCons t name rest ht hname hall hsb hnext hrest ih =>
    have hr : renderComps (.Text t :: .Variable name :: rest) =
        t ++ '$' :: '$' :: (name ++ renderComps rest) := by
      simp [renderComps, renderComponent]
    rw [hr, parseComps_literal_append ia t _ [] ht, List.nil_append,
      parseComps_var_step]
    have htw : (name ++ renderComps rest).takeWhile ia = name :=
      takeWhile_append_exact
        (fun c hc => List.all_eq_true.mp hall c hc)
        (fun c hc => hnext c (by rw [firstRenderChar_eq_head]; exact hc))
    rw [htw, if_neg hname, byteLen_eq_length hsb, List.drop_left, ih]
    rfl
  | constCons t name rest ht hname hall hsb hnext hrest ih =>
    have hr : renderComps (.Text t :: .Constant name :: rest) =
        t ++ '@' :: (name ++ renderComps rest) := by
      simp [renderComps, renderComponent]
    rw [hr, parseComps_literal_append ia t _ [] ht, List.nil_append,
      parseComps_const_step]
    have htw : (name ++ renderComps rest).takeWhile ia = name :=
      takeWhile_append_exact
        (fun c hc => List.all_eq_true.mp hall c hc)
        (fun c hc => hnext c (by rw [firstRenderChar_eq_head]; exact hc))
    rw [htw, if_neg hname, byteLen_eq_length hsb, List.drop_left, ih]
    rfl
  | regexCons t r rest ht hbal hclass hrest ih =>
    have hr : renderComps (.Text t :: .Regex r :: rest) =
        t ++ '[' :: '[' :: (r ++ ']' :: ']' :: renderComps rest) := by
      simp [renderComps, renderComponent]
    rw [hr, parseComps_literal_append ia t _ [] ht, List.nil_append,
      parseComps_bracket_step,
      scan_exact (renderComps rest) hbal (le_refl 0), hclass,
      Option.some_bind, ih]
    rfl
  | namedCons t n r rest ht hbal hclass hrest ih =>
    have hr : renderComps (.Text t :: .NamedRegex n r :: rest) =
        t ++ '[' :: '[' :: ((n ++ ':' :: r) ++ ']' :: ']' :: renderComps rest) := by
      simp [renderComps, renderComponent]
    rw [hr, parseComps_literal_append ia t _ [] ht, List.nil_append,
      parseComps_bracket_step,
      scan_exact (renderComps rest) hbal (le_refl 0), hclass,
      Option.some_bind, ih]
    rfl


/-- C7 counterexample: the round-trip law fails as stated, on a pattern
whose bracketed fragment contains unbalanced closing brackets.  The
input `[[a]b]]` parses to the fragment `a]b]]` (the scanner only stops
at `]]` seen at depth 0, and the depth has gone negative), its
canonical rendition is `[[a]b]]]]`, and re-parsing that yields the
different fragment `a]b]]]]`. -/
theorem c7_counterexample :
    parseTextPattern asciiIsAlphanumeric
        ['[', '[', 'a', ']', 'b', ']', ']'] =
      some ⟨[.Text [], .Regex ['a', ']', 'b', ']', ']'], .Text []]⟩ ∧
    renderPattern ⟨[.Text [], .Regex ['a', ']', 'b', ']', ']'], .Text []]⟩ =
      ['[', '[', 'a', ']', 'b', ']', ']', ']', ']'] ∧
    parseTextPattern asciiIsAlphanumeric
        ['[', '[', 'a', ']', 'b', ']', ']', ']', ']'] =
      some ⟨[.Text [], .Regex ['a', ']', 'b', ']', ']', ']', ']'], .Text []]⟩ ∧
    (⟨[.Text [], .Regex ['a', ']', 'b', ']', ']', ']', ']'], .Text []]⟩ :
        TextPattern) ≠
      ⟨[.Text [], .Regex ['a', ']', 'b', ']', ']'], .Text []]⟩ := by
  refine ⟨?_, by decide, ?_, by decide⟩
  · have hscan : scanRegex 0 ['a', ']', 'b', ']', ']'] =
        (['a', ']', 'b', ']', ']'], []) := by decide
    have hclass : classifyFrag ['a', ']', 'b', ']', ']'] =
        some (.Regex ['a', ']', 'b', ']', ']']) := by decide
    show (parseComps asciiIsAlphanumeric
      ['[', '[', 'a', ']', 'b', ']', ']'] []).map TextPattern.mk = _
    rw [parseComps_bracket_step, hscan]
    simp [hclass, parseComps_nil]
  · have hscan : scanRegex 0 ['a', ']', 'b', ']', ']', ']', ']'] =
        (['a', ']', 'b', ']', ']', ']', ']'], []) := by decide
    have hclass : classifyFrag ['a', ']', 'b', ']', ']', ']', ']'] =
        some (.Regex ['a', ']', 'b', ']', ']', ']', ']']) := by decide
    show (parseComps asciiIsAlphanumeric
      ['[', '[', 'a', ']', 'b', ']', ']', ']', ']'] []).map TextPattern.mk = _
    rw [parseComps_bracket_step, hscan]
    simp [hclass, parseComps_nil]

/-- C7 (amended): the parser round-trip law holds for every parsed
pattern whose bracketed fragments are bracket-balanced and whose
variable/constant names are ASCII: if `text_pattern(s)` succeeds with
`p`, then re-parsing the canonical `Display` rendition of `p` succeeds
and yields `p` again.  (Without the balance condition the scanner
re-consumes the rendered `]]` terminator differently — see the
counterexample — and without the ASCII condition the `name.len() - 1`
byte/char skip diverges from the name it renders.) -/
theorem c7_round_trip_balanced_ascii (ia : Char → Bool) (s : List Char)
    (p : TextPattern)
    (hp : parseTextPattern ia s = some p)
    (hbal : patternBalanced p = true)
    (hnames : patternNamesSingleByte p = true) :
    parseTextPattern ia (renderPattern p) = some p := by
  obtain ⟨comps, hc, hmk⟩ := Option.map_eq_some'.mp hp
  subst hmk
  have hwf : CompsWf ia comps :=
    parse_wf s.length s [] comps (le_refl _) hc rfl hbal hnames
  have hrr := render_reparse hwf
  show (parseComps ia (renderComps comps) []).map TextPattern.mk = _
  rw [hrr]
  rfl

/-- Witness for the amended C7 at a concrete input: `x$$ab` parses to
`Text "x" / Variable "ab" / Text ""`, and re-parsing its rendition
recovers that pattern. -/
theorem c7_round_trip_balanced_ascii_witness :
    parseTextPattern asciiIsAlphanumeric
      (renderPattern ⟨[.Text ['x'], .Variable ['a', 'b'], .Text []]⟩) =
      some ⟨[.Text ['x'], .Variable ['a', 'b'], .Text []]⟩ :=
  c7_round_trip_balanced_ascii asciiIsAlphanumeric ['x', '$', '$', 'a', 'b']
    ⟨[.Text ['x'], .Variable ['a', 'b'], .Text []]⟩
    (by
      have htw : (['a', 'b'] : List Char).takeWhile asciiIsAlphanumeric =
          ['a', 'b'] := by decide
      show (parseComps asciiIsAlphanumeric
        ['x', '$', '$', 'a', 'b'] []).map TextPattern.mk = _
      rw [parseComps_literal_step asciiIsAlphanumeric 'x' _ _
        (by decide) (by decide) (by decide), parseComps_var_step, htw]
      simp [byteLen, utf8Len, parseComps_nil])
    (by decide) (by decide)


end Lit
